import Mathlib

/-
  Shallow embedding of the mongo-lazy-schema migration engine.

  Sources embedded here:
  - src/src/transformInput.ts        (Version Bucketer: `transformInput`)
  - src/unnamed/part_005             (Migration Driver / orchestration: `updatedDocuments`,
                                      the bucket-merge loop and `validateProjection`)
  - src/unnamed/part_004             (Change Writer: `persistChangedDocuments`)
  - src/src/types.ts, src/unnamed/part_001 (data model: `DocumentMetaData`, `Projection`,
                                      `SchemaRevision`, the schema context built by `createSchema`)

  Modelling conventions:
  - A JavaScript input element is `Elem`: a document or one of the falsy values
    `undefined` / `null` / `false` that the engine explicitly supports.
  - A document is `Doc`: its `_id` and `_v` tags plus an association list of its
    other fields.  A field value can itself be a present-but-`undefined` key
    (constructor `undefinedF`), mirroring `obj.k = undefined` in JavaScript.
  - Asynchronous suspension points (`await`) do not affect values and are elided;
    transforms and nested engine calls are total Lean functions.
  - A thrown exception is an `Except.error`; since `persistChangedDocuments` runs
    last in `updatedDocuments`, an error result implies no store write happened.
  - The nested engine instances stored in `this.embeddedDocumentSchemas` are
    modelled as functions `List FieldVal → List FieldVal` kept inside the context.
-/

namespace MongoLazySchema

/-- A value stored under a document field.  `undefinedF`, `nullF`, `falseF` are the
JavaScript falsy values that can sit in (or stand for a missing) field; `prim` is an
opaque truthy payload; `embDoc ev payload` is an embedded versioned document with its
own `_v = ev`. -/
inductive FieldVal where
  | undefinedF : FieldVal
  | nullF : FieldVal
  | falseF : FieldVal
  | prim : Nat → FieldVal
  | embDoc : Nat → Nat → FieldVal
deriving DecidableEq, Repr

/-- A top-level document: `_id`, `_v` and the remaining fields in key order. -/
structure Doc where
  id : Nat
  v : Nat
  fields : List (String × FieldVal)
deriving DecidableEq, Repr

/-- An input element: a document object or one of the supported falsy values. -/
inductive Elem where
  | doc : Doc → Elem
  | jsUndefined : Elem
  | jsNull : Elem
  | jsFalse : Elem
deriving DecidableEq, Repr

/-- JavaScript truthiness of an input element (document objects are truthy). -/
def Elem.truthy : Elem → Bool
  | .doc _ => true
  | _ => false

/-- Per-document position metadata (src/src/types.ts `DocumentMetaData`). -/
structure DocumentMetaData where
  index : Nat
  willBeUpdated : Bool
  initialFields : Option (List String)
deriving DecidableEq, Repr

/-- One version bucket of `documentsByVersion` (src/src/transformInput.ts). -/
structure VersionBucket where
  documents : List Elem
  metaData : List DocumentMetaData
deriving DecidableEq, Repr

/-- A projection entry value: the only supported value is the literal `false`
(exclusion); anything else is an invalid entry. -/
inductive ProjectionValue where
  | exclude : ProjectionValue
  | invalid : ProjectionValue
deriving DecidableEq, Repr

/-- A projection object: field name to entry value, in key order. -/
abbrev Projection := List (String × ProjectionValue)

/-- A revision (src/src/types.ts `SchemaRevision`): either a per-document
`update` transform or a batch `updateMany` transform. -/
inductive SchemaRevision where
  | update : (Elem → Elem) → SchemaRevision
  | updateMany : (List Elem → List Elem) → SchemaRevision

/-- The schema context bound by `createSchema` (src/unnamed/part_001) and consumed
by `updatedDocuments` / `transformInput` / `persistChangedDocuments` as `this`. -/
structure Context where
  embedded : Bool
  embeddedDocumentSchemas : List (String × (List FieldVal → List FieldVal))
  embeddedSchemaVersions : List (String × Nat)
  hasEmbeddedDocuments : Bool
  schemaVersion : Nat
  revisions : List SchemaRevision

/-- Errors thrown by the engine.  `missingSchemaVersionBucket` is the TypeError
raised by `documentsByVersion[this.schemaVersion].documents` when no bucket exists
at `schemaVersion`. -/
inductive EngineError where
  | invalidProjection : EngineError
  | versionMismatch : Nat → EngineError
  | missingSchemaVersionBucket : EngineError
deriving DecidableEq, Repr

/-- A single bulk-write operation built by `persistChangedDocuments`
(src/unnamed/part_004): a full `replaceOne`, or an `updateOne` with `$set` of the
whole document and an optional `$unset` field-name set. -/
inductive WriteOp where
  | replaceOne : Nat → Doc → WriteOp
  | updateOne : Nat → Doc → Option (List String) → WriteOp
deriving DecidableEq, Repr

/-- The caller's input shape (`Input<T>` in src/src/types.ts, after awaiting). -/
inductive Input where
  | single : Elem → Input
  | batch : List Elem → Input
deriving DecidableEq, Repr

/-- The engine's output shape: single value or array. -/
inductive Output where
  | single : Elem → Output
  | batch : List Elem → Output
deriving DecidableEq, Repr

/-- Successful result of `updatedDocuments`: the returned value plus the single
batched `bulkWrite` payload (`none` when no write call was issued). -/
structure EngineSuccess where
  output : Output
  writes : Option (List WriteOp)
deriving DecidableEq, Repr

/-! ## Small helpers shared by the embedded functions -/

/-- First-match association-list lookup (JavaScript object property access). -/
def lookupAssoc {α : Type} (l : List (String × α)) (key : String) : Option α :=
  (l.find? (fun kv => kv.1 == key)).map Prod.snd

/-- `projection[key]` access. -/
def projLookup (projection : Projection) (key : String) : Option ProjectionValue :=
  lookupAssoc projection key

/-- `document[name]` for a document: absent keys read as `undefined`. -/
def Doc.getField (d : Doc) (name : String) : FieldVal :=
  (lookupAssoc d.fields name).getD .undefinedF

/-- `document && document[name]`: on a falsy element the falsy value itself is
produced; on a document the field is read (absent keys give `undefined`). -/
def Elem.andField : Elem → String → FieldVal
  | .doc d, name => d.getField name
  | .jsUndefined, _ => .undefinedF
  | .jsNull, _ => .nullF
  | .jsFalse, _ => .falseF

/-- JavaScript truthiness of a field value.  Opaque `prim` payloads model truthy
business values; all outcomes below only feed conditions whose result does not
depend on the truthiness of a non-document field value. -/
def FieldVal.truthy : FieldVal → Bool
  | .undefinedF => false
  | .nullF => false
  | .falseF => false
  | .prim _ => true
  | .embDoc _ _ => true

/-- `embeddedDocument._v < w` in JavaScript: comparison against `undefined`
(no `_v` on a non-document value, or `w` absent) is `false`. -/
def fieldVersionLt (fv : FieldVal) (w : Option Nat) : Bool :=
  match fv, w with
  | .embDoc ev _, some n => decide (ev < n)
  | _, _ => false

/-- `document ? document._v : this.schemaVersion` (src/src/transformInput.ts). -/
def elemVersion (ctx : Context) : Elem → Nat
  | .doc d => d.v
  | _ => ctx.schemaVersion

/-- `Object.keys(document)`: `_id` and `_v` plus the remaining field keys. -/
def jsKeys (d : Doc) : List String :=
  "_id" :: "_v" :: d.fields.map Prod.fst

/-- `typeof document[name] === 'undefined'` for the final document. -/
def jsFieldUndefined (d : Doc) (name : String) : Bool :=
  if name == "_id" || name == "_v" then false
  else
    match lookupAssoc d.fields name with
    | none => true
    | some .undefinedF => true
    | some _ => false

/-- `!this.embeddedDocumentSchemas[fieldName]`: whether the name is a declared
embedded-schema field. -/
def isEmbeddedSchemaName (ctx : Context) (name : String) : Bool :=
  (ctx.embeddedDocumentSchemas.map Prod.fst).any (fun k => k == name)

/-- The names of declared embedded fields not excluded by the projection
(`Object.keys(this.embeddedDocumentSchemas).filter(n => projection[n] !== false)`). -/
def projectedEmbeddedDocumentNames (ctx : Context) (projection : Projection) : List String :=
  (ctx.embeddedDocumentSchemas.map Prod.fst).filter
    (fun fieldName => !(projLookup projection fieldName == some ProjectionValue.exclude))

/-! ## transformInput (src/src/transformInput.ts) -/

/-- Result of `transformInput`. -/
structure TransformedInput where
  documentsByVersion : List (Nat × VersionBucket)
  embeddedDocuments : List (String × List FieldVal)
deriving Repr

/-- Append a document and its metadata to the bucket for `version`, creating the
bucket when absent (`documentsByVersion[version].documents.push(...)`). -/
def bucketPush (bs : List (Nat × VersionBucket)) (version : Nat) (e : Elem)
    (m : DocumentMetaData) : List (Nat × VersionBucket) :=
  match bs with
  | [] => [(version, ⟨[e], [m]⟩)]
  | (k, b) :: rest =>
    if k = version then (k, ⟨b.documents ++ [e], b.metaData ++ [m]⟩) :: rest
    else (k, b) :: bucketPush rest version e m

/-- Append a value to the embedded-documents list kept for `name`. -/
def embPush (ls : List (String × List FieldVal)) (name : String) (fv : FieldVal) :
    List (String × List FieldVal) :=
  match ls with
  | [] => []
  | (k, l) :: rest =>
    if k = name then (k, l ++ [fv]) :: rest else (k, l) :: embPush rest name fv

/-- The body of the inner `for (const embeddedDocumentName of projectedEmbeddedDocumentNames)`
loop: maybe force `documentWillBeUpdated`, and push the embedded value. -/
def embeddedStep (ctx : Context) (e : Elem)
    (acc : Bool × List (String × List FieldVal)) (name : String) :
    Bool × List (String × List FieldVal) :=
  let embeddedDocument := e.andField name
  let wbu :=
    if embeddedDocument.truthy && !acc.1 &&
        fieldVersionLt embeddedDocument (lookupAssoc ctx.embeddedSchemaVersions name) then
      true
    else acc.1
  (wbu, embPush acc.2 name embeddedDocument)

/-- The body of `for (const i in input)` in `transformInput`, iterated with the
running index. -/
def transformInputGo (ctx : Context) (names : List String) :
    Nat → List Elem → TransformedInput → TransformedInput
  | _, [], acc => acc
  | i, e :: rest, acc =>
    let version := elemVersion ctx e
    let start := decide (version < ctx.schemaVersion)
    let folded := names.foldl (embeddedStep ctx e) (start, acc.embeddedDocuments)
    let meta : DocumentMetaData :=
      ⟨i, folded.1,
        if ctx.hasEmbeddedDocuments then
          match e with
          | .doc d => some (jsKeys d)
          | _ => none
        else none⟩
    transformInputGo ctx names (i + 1) rest
      ⟨bucketPush acc.documentsByVersion version e meta, folded.2⟩

/-- `transformInput` (src/src/transformInput.ts): bucket the input by declared
version, computing per-document metadata and the per-field embedded value lists. -/
def transformInput (ctx : Context) (input : List Elem) (projection : Projection) :
    TransformedInput :=
  let names := projectedEmbeddedDocumentNames ctx projection
  transformInputGo ctx names 0 input ⟨[], names.map (fun n => (n, []))⟩

/-! ## The migration driver (src/unnamed/part_005) -/

/-- `documentsByVersion[k]` lookup. -/
def findBucket (bs : List (Nat × VersionBucket)) (k : Nat) : Option VersionBucket :=
  (bs.find? (fun kb => kb.1 == k)).map Prod.snd

/-- `documentsByVersion[k] = b` store (replace or add the key). -/
def setBucket (bs : List (Nat × VersionBucket)) (k : Nat) (b : VersionBucket) :
    List (Nat × VersionBucket) :=
  match bs with
  | [] => [(k, b)]
  | (k', b') :: rest =>
    if k' = k then (k', b) :: rest else (k', b') :: setBucket rest k b

/-- `Math.min(...Object.keys(documentsByVersion))` over the present keys. -/
def minKeyOf : List Nat → Nat
  | [] => 0
  | k :: ks => ks.foldl Nat.min k

/-- Apply a revision to a bucket's documents: `updateMany` gets the whole array,
`update` is mapped over the documents (`Promise.all(documents.map(...))`). -/
def applyRevision : SchemaRevision → List Elem → List Elem
  | .update f, documents => documents.map f
  | .updateMany f, documents => f documents

/-- `this.revisions[version]`; the default is never reached because the loop bound
keeps `version < this.schemaVersion = revisions.length`. -/
def revisionAt (ctx : Context) (version : Nat) : SchemaRevision :=
  ctx.revisions.getD version (.update (fun e => e))

/-- The `document._v !== version + 1` validation on one transformed element;
a non-document output also fails the whole call in the source (TypeError or
mismatch), folded here into the same failure. -/
def checkVersionTag : Elem → Nat → Bool
  | .doc d, expected => d.v == expected
  | _, _ => false

/-- The two-pointer interleave loop of part_005 (lines 75-103): `fuel` is the
`documentCount` bound, the `typeof idx === 'undefined'` exits push the whole rest
of the other side, `shift()` on an exhausted documents array yields `undefined`. -/
def mergeLoop :
    Nat → List Elem → List DocumentMetaData → List Elem → List DocumentMetaData →
    List Elem × List DocumentMetaData
  | 0, _, _, _, _ => ([], [])
  | Nat.succ fuel, cDocs, cMeta, nDocs, nMeta =>
    match cMeta with
    | [] => (nDocs, nMeta)
    | cm :: cmTail =>
      match nMeta with
      | [] => (cDocs, cm :: cmTail)
      | nm :: nmTail =>
        if nm.index < cm.index then
          let r := mergeLoop fuel cDocs (cm :: cmTail) (nDocs.drop 1) nmTail
          (nDocs.headD .jsUndefined :: r.1, nm :: r.2)
        else
          let r := mergeLoop fuel (cDocs.drop 1) cmTail nDocs (nm :: nmTail)
          (cDocs.headD .jsUndefined :: r.1, cm :: r.2)

/-- One iteration of the driver loop at `version`: apply the revision, validate
every returned `_v`, then merge into the bucket at `version + 1`. -/
def driveStep (ctx : Context) (buckets : List (Nat × VersionBucket)) (version : Nat) :
    Except EngineError (List (Nat × VersionBucket)) :=
  let bucket := (findBucket buckets version).getD ⟨[], []⟩
  let documents := applyRevision (revisionAt ctx version) bucket.documents
  if documents.all (fun d => checkVersionTag d (version + 1)) then
    let nextVersionDocuments := (findBucket buckets (version + 1)).getD ⟨[], []⟩
    let merged := mergeLoop (documents.length + nextVersionDocuments.documents.length)
      documents bucket.metaData nextVersionDocuments.documents nextVersionDocuments.metaData
    .ok (setBucket buckets (version + 1) ⟨merged.1, merged.2⟩)
  else .error (.versionMismatch version)

/-- `for (let version = min; version < this.schemaVersion; version++)`, with
`fuel = schemaVersion - min` iterations remaining. -/
def driveLoop (ctx : Context) :
    Nat → Nat → List (Nat × VersionBucket) → Except EngineError (List (Nat × VersionBucket))
  | 0, _, buckets => .ok buckets
  | Nat.succ fuel, version, buckets =>
    match driveStep ctx buckets version with
    | .ok next => driveLoop ctx fuel (version + 1) next
    | .error e => .error e

/-! ## persistChangedDocuments (src/unnamed/part_004) -/

/-- Fallback for `documents[index]` at an unreachable misaligned position. -/
def elemDoc : Elem → Doc
  | .doc d => d
  | _ => ⟨0, 0, []⟩

/-- The field-level update built for one stale document in embedded mode:
`$set` the whole document, `$unset` the snapshot fields now undefined that are
not declared embedded-schema names. -/
def fieldModeOp (ctx : Context) (document : Doc) (initialFields : List String) : WriteOp :=
  let unsetList := initialFields.filter
    (fun fieldName => jsFieldUndefined document fieldName && !isEmbeddedSchemaName ctx fieldName)
  .updateOne document.id document (if unsetList.isEmpty then none else some unsetList)

/-- The embedded-mode `metaData.reduce` of part_004, iterated with the index. -/
def persistOpsEmbedded (ctx : Context) (documents : List Elem) :
    Nat → List DocumentMetaData → List WriteOp
  | _, [] => []
  | index, m :: rest =>
    let restOps := persistOpsEmbedded ctx documents (index + 1) rest
    if m.willBeUpdated then
      fieldModeOp ctx (elemDoc (documents.getD index .jsUndefined)) (m.initialFields.getD [])
        :: restOps
    else restOps

/-- The replace-mode `metaData.reduce` of part_004, iterated with the index. -/
def persistOpsReplace (documents : List Elem) :
    Nat → List DocumentMetaData → List WriteOp
  | _, [] => []
  | index, m :: rest =>
    let restOps := persistOpsReplace documents (index + 1) rest
    if m.willBeUpdated then
      .replaceOne (elemDoc (documents.getD index .jsUndefined)).id
        (elemDoc (documents.getD index .jsUndefined)) :: restOps
    else restOps

/-- `persistChangedDocuments`: build the bulk operations; `none` means the early
return without calling `collection.bulkWrite`, `some ops` the single batched call. -/
def persistChangedDocuments (ctx : Context) (documents : List Elem)
    (metaData : List DocumentMetaData) : Option (List WriteOp) :=
  let bulkWriteOperations :=
    if ctx.hasEmbeddedDocuments then persistOpsEmbedded ctx documents 0 metaData
    else persistOpsReplace documents 0 metaData
  if bulkWriteOperations.isEmpty then none else some bulkWriteOperations

/-! ## Embedded-field splice and orchestration (src/unnamed/part_005) -/

/-- `obj[name] = v` on a JavaScript object: replace the value in place or append
the key. -/
def setAssoc : List (String × FieldVal) → String → FieldVal → List (String × FieldVal)
  | [], name, v => [(name, v)]
  | (k, w) :: rest, name, v =>
    if k == name then (k, v) :: rest else (k, w) :: setAssoc rest name v

/-- `result[index][name] = v` on a document. -/
def setField (d : Doc) (name : String) (v : FieldVal) : Doc :=
  ⟨d.id, d.v, setAssoc d.fields name v⟩

/-- The inner `for (const index in result)` splice loop for one embedded name:
falsy positions are skipped, others get `updatedEmbeddedDocuments[name][index]`. -/
def spliceName (updatedList : List FieldVal) (name : String) :
    Nat → List Elem → List Elem
  | _, [] => []
  | index, e :: rest =>
    let e2 : Elem :=
      match e with
      | .doc d => .doc (setField d name (updatedList.getD index .undefinedF))
      | other => other
    e2 :: spliceName updatedList name (index + 1) rest

/-- The outer splice loop over `projectedEmbeddedDocumentNames`. -/
def spliceEmbedded (names : List String)
    (updatedEmbeddedDocuments : List (String × List FieldVal)) (result : List Elem) :
    List Elem :=
  names.foldl
    (fun res name =>
      spliceName ((lookupAssoc updatedEmbeddedDocuments name).getD []) name 0 res)
    result

/-- `validateProjection` (part_005 lines 131-137): every entry must be the literal
`false`. -/
def validateProjection (projection : Projection) : Bool :=
  projection.all (fun kv => kv.2 == ProjectionValue.exclude)

/-- The nested engine call for one embedded field name. -/
def embeddedSchemaApply (ctx : Context) (name : String) (docs : List FieldVal) :
    List FieldVal :=
  ((lookupAssoc ctx.embeddedDocumentSchemas name).getD (fun x => x)) docs

/-- `updatedDocuments` (src/unnamed/part_005): the whole engine call.
`hasCollection` is whether a store handle was passed; an `.error` result models the
returned promise rejecting, which in the source always happens before the single
`bulkWrite` at the end, so an error implies no store write. -/
def updatedDocuments (ctx : Context) (input : Input) (hasCollection : Bool)
    (projection : Projection) : Except EngineError EngineSuccess :=
  let singleDocument := match input with | .single _ => true | .batch _ => false
  let inputList := match input with | .single e => [e] | .batch l => l
  if !validateProjection projection then .error .invalidProjection
  else if inputList.length == 0 then .ok ⟨.batch [], none⟩
  else
    let names := projectedEmbeddedDocumentNames ctx projection
    let ti := transformInput ctx inputList projection
    let updatedEmbeddedDocuments : List (String × List FieldVal) :=
      if !ctx.embedded then
        names.map (fun n =>
          (n, embeddedSchemaApply ctx n ((lookupAssoc ti.embeddedDocuments n).getD [])))
      else []
    let minVersion := minKeyOf (ti.documentsByVersion.map Prod.fst)
    match driveLoop ctx (ctx.schemaVersion - minVersion) minVersion ti.documentsByVersion with
    | .error e => .error e
    | .ok buckets =>
      match findBucket buckets ctx.schemaVersion with
      | none => .error .missingSchemaVersionBucket
      | some finalBucket =>
        let result :=
          if !ctx.embedded && !names.isEmpty then
            spliceEmbedded names updatedEmbeddedDocuments finalBucket.documents
          else finalBucket.documents
        let writes :=
          if hasCollection && !ctx.embedded then
            persistChangedDocuments ctx result finalBucket.metaData
          else none
        .ok ⟨if singleDocument then .single (result.getD 0 .jsUndefined) else .batch result,
          writes⟩

/-! ## Utility: enumeration of a list with its positions -/

/-- `enumFrom i l` pairs each element of `l` with its running index starting at `i`. -/
def enumFrom {α : Type} : Nat → List α → List (Nat × α)
  | _, [] => []
  | i, a :: rest => (i, a) :: enumFrom (i + 1) rest

/-- Closed form of the embedded-staleness contribution computed by the inner
`for (const embeddedDocumentName of ...)` loop of `transformInput`. -/
def wbuEmbedded (ctx : Context) (names : List String) (e : Elem) : Bool :=
  names.any (fun name =>
    fieldVersionLt (e.andField name) (lookupAssoc ctx.embeddedSchemaVersions name))

/-- Closed form of the `DocumentMetaData` record built by `transformInput` for the
element `e` at original position `i`. -/
def mkMeta (ctx : Context) (names : List String) (i : Nat) (e : Elem) : DocumentMetaData :=
  ⟨i, decide (elemVersion ctx e < ctx.schemaVersion) || wbuEmbedded ctx names e,
    if ctx.hasEmbeddedDocuments then
      match e with
      | .doc d => some (jsKeys d)
      | _ => none
    else none⟩

/-- The (element, metadata) pairs that `transformInput` places in the bucket for
version `k`, taken from the position-indexed input. -/
def bucketItems (ctx : Context) (names : List String) (l : List (Nat × Elem)) (k : Nat) :
    List (Elem × DocumentMetaData) :=
  (l.filter (fun x => elemVersion ctx x.2 == k)).map
    (fun x => (x.2, mkMeta ctx names x.1 x.2))

/-- Rebuild a `VersionBucket` from (element, metadata) pairs. -/
def pairsBucket (l : List (Elem × DocumentMetaData)) : VersionBucket :=
  ⟨l.map Prod.fst, l.map Prod.snd⟩

/-- A bucket that exists only when it received at least one document. -/
def optBucket (l : List (Elem × DocumentMetaData)) : Option VersionBucket :=
  if l.isEmpty then none else some (pairsBucket l)

/-- Append pairs to an optional bucket, creating it when absent. -/
def appendBucket : Option VersionBucket → List (Elem × DocumentMetaData) → Option VersionBucket
  | none, l => optBucket l
  | some b, l => some ⟨b.documents ++ l.map Prod.fst, b.metaData ++ l.map Prod.snd⟩

/-- The merge of part_005 rephrased on zipped (document, metadata) pairs: take the
next-version head only when its original index is strictly smaller (ties favor the
freshly transformed bucket). -/
def mergeZ : List (Elem × DocumentMetaData) → List (Elem × DocumentMetaData) →
    List (Elem × DocumentMetaData)
  | [], n => n
  | ch :: ct, [] => ch :: ct
  | ch :: ct, nh :: nt =>
    if nh.2.index < ch.2.index then nh :: mergeZ (ch :: ct) nt
    else ch :: mergeZ ct (nh :: nt)
termination_by c n => c.length + n.length

/-- The migration state of an element after the driver has processed all versions
below `k`: fold the per-document transforms from the element's own version up. -/
def migrateTo (ctx : Context) (t : Nat → Elem → Elem) : Nat → Elem → Elem
  | 0, e => e
  | k + 1, e => if elemVersion ctx e ≤ k then t k (migrateTo ctx t k e) else e

/-- The composition of the transforms `v, v+1, ..., w-1` applied in order. -/
def applyChain (t : Nat → Elem → Elem) (v w : Nat) (e : Elem) : Elem :=
  (List.range' v (w - v)).foldl (fun acc i => t i acc) e

/-- One (document, metadata) pair held by the driver for the input element at
position `x.1`, after all versions below `k` were processed. -/
def itemAt (ctx : Context) (t : Nat → Elem → Elem) (names : List String) (k : Nat)
    (x : Nat × Elem) : Elem × DocumentMetaData :=
  (migrateTo ctx t k x.2, mkMeta ctx names x.1 x.2)

/-- The contents of the driver's current bucket when the loop is about to process
version `k`: every input element at a version up to `k`, migrated to `k`, in
original order. -/
def stageList (ctx : Context) (t : Nat → Elem → Elem) (names : List String)
    (input : List Elem) (k : Nat) : List (Elem × DocumentMetaData) :=
  ((enumFrom 0 input).filter (fun x => decide (elemVersion ctx x.2 ≤ k))).map
    (itemAt ctx t names k)

/-- The driver invariant at loop position `v`: the bucket at `v` holds the staged
documents, and every later bucket is still exactly what `transformInput` built. -/
def GoodState (ctx : Context) (t : Nat → Elem → Elem) (names : List String)
    (input : List Elem) (v : Nat) (buckets : List (Nat × VersionBucket)) : Prop :=
  findBucket buckets v = some (pairsBucket (stageList ctx t names input v)) ∧
  ∀ k, v < k → findBucket buckets k = optBucket (bucketItems ctx names (enumFrom 0 input) k)

/-- The per-position effect of the whole splice phase on one element. -/
def spliceElem (names : List String) (upd : List (String × List FieldVal)) (j : Nat)
    (e : Elem) : Elem :=
  names.foldl
    (fun acc n =>
      match acc with
      | Elem.doc d => Elem.doc (setField d n (((lookupAssoc upd n).getD []).getD j .undefinedF))
      | other => other) e

/-- The target `_id` matched by a bulk-write operation. -/
def writeTarget : WriteOp → Nat
  | .replaceOne i _ => i
  | .updateOne i _ _ => i

/-- The `$unset` field list carried by a bulk-write operation. -/
def unsetFields : WriteOp → List String
  | .replaceOne _ _ => []
  | .updateOne _ _ u => u.getD []

/-- A version-correct per-document transform: bump `_v` to `i + 1`, keep the rest. -/
def bumpT : Nat → Elem → Elem := fun i e =>
  match e with
  | .doc d => .doc ⟨d.id, i + 1, d.fields⟩
  | _ => .doc ⟨0, i + 1, []⟩

/-- A one-revision schema context (`schemaVersion = 1`, no embedded fields). -/
def ctxOne : Context :=
  ⟨false, [], [], false, 1, [.update (bumpT 0)]⟩

/-- A two-revision schema context (`schemaVersion = 2`, no embedded fields). -/
def ctxTwo : Context :=
  ⟨false, [], [], false, 2, [.update (bumpT 0), .update (bumpT 1)]⟩

/-- A nested engine for concrete checks: upgrade version-0 embedded documents to
version 1 (doubling the payload), pass anything else through. -/
def embUp : List FieldVal → List FieldVal := fun l =>
  l.map (fun fv =>
    match fv with
    | .embDoc 0 p => .embDoc 1 (p + p)
    | other => other)

/-- A context with one declared embedded field `embedded` and no top-level
revisions (`schemaVersion = 0`). -/
def ctxEmb : Context :=
  ⟨false, [("embedded", embUp)], [("embedded", 1)], true, 0, []⟩

/-- A broken schema context whose only revision forgets to bump `_v`. -/
def ctxBad : Context :=
  ⟨false, [], [], false, 1, [.update (fun e => e)]⟩

/-- A stale version-0 input document for concrete bucket checks. -/
def eC5 : Elem := .doc ⟨1, 0, []⟩

/-- The metadata `transformInput ctxOne [eC5] []` derives for `eC5`. -/
def mC5 : DocumentMetaData := ⟨0, true, none⟩

/-- The version-0 bucket `transformInput ctxOne [eC5] []` builds. -/
def bC5 : VersionBucket := ⟨[eC5], [mC5]⟩

/-- A concrete final-documents array for field-mode persistence checks. -/
def docsC7 : List Elem := [.doc ⟨7, 0, []⟩]

/-- Metadata flagging `docsC7` position 0 stale with snapshot field `old`. -/
def metaC7 : List DocumentMetaData := [⟨0, true, some ["old"]⟩]

/-- The bulk-write operations `persistChangedDocuments ctxEmb docsC7 metaC7`
produces. -/
def opsC7 : List WriteOp := [.updateOne 7 ⟨7, 0, []⟩ (some ["old"])]

/-- The nested engine's result list for a projected embedded field name, as a
function of the raw input (via the extracted per-field value lists). -/
def nestedResults (ctx : Context) (projection : Projection) (input : List Elem)
    (name : String) : List FieldVal :=
  embeddedSchemaApply ctx name (input.map (fun e => e.andField name))

/-- The engine's final output element at position `p`: migrate to the schema
version, then (for a non-embedded schema) splice each projected embedded field's
nested result at that position. -/
def finalElem (ctx : Context) (t : Nat → Elem → Elem) (projection : Projection)
    (input : List Elem) (p : Nat) (e : Elem) : Elem :=
  spliceElem (projectedEmbeddedDocumentNames ctx projection)
    ((projectedEmbeddedDocumentNames ctx projection).map
      (fun n => (n, nestedResults ctx projection input n)))
    p (migrateTo ctx t ctx.schemaVersion e)

/-- Well-formedness of one bucket: the documents and metadata arrays have equal
length, and the metadata original-position indices are strictly increasing. -/
def WFBucket (b : VersionBucket) : Prop :=
  b.documents.length = b.metaData.length ∧
  b.metaData.Pairwise (fun a b => a.index < b.index)

/-- The driver invariant over the buckets still live when the loop is about to
process version `v`: each is well-formed and their position-index sets are
pairwise disjoint. -/
def LiveInv (v : Nat) (bs : List (Nat × VersionBucket)) : Prop :=
  (∀ k b, v ≤ k → findBucket bs k = some b → WFBucket b) ∧
  (∀ k1 k2 b1 b2, v ≤ k1 → v ≤ k2 → k1 ≠ k2 →
    findBucket bs k1 = some b1 → findBucket bs k2 = some b2 →
    ∀ i ∈ b1.metaData.map DocumentMetaData.index,
      i ∉ b2.metaData.map DocumentMetaData.index)

theorem enumFrom_map_snd {α : Type} (i : Nat) (l : List α) :
    (enumFrom i l).map Prod.snd = l := by
  induction l generalizing i with
  | nil => rfl
  | cons a rest ih => simp [enumFrom, ih]

theorem enumFrom_length {α : Type} (i : Nat) (l : List α) :
    (enumFrom i l).length = l.length := by
  induction l generalizing i with
  | nil => rfl
  | cons a rest ih => simp [enumFrom, ih]

theorem mem_enumFrom {α : Type} {i : Nat} {l : List α} {x : Nat × α} :
    x ∈ enumFrom i l ↔ ∃ j, x.1 = i + j ∧ l[j]? = some x.2 := by
  induction l generalizing i with
  | nil => simp [enumFrom]
  | cons a rest ih =>
    simp only [enumFrom, List.mem_cons, ih]
    constructor
    · rintro (rfl | ⟨j, hj, hget⟩)
      · exact ⟨0, by simp⟩
      · exact ⟨j + 1, by omega, by simpa using hget⟩
    · rintro ⟨j, hj, hget⟩
      cases j with
      | zero =>
        left
        simp only [List.getElem?_cons_zero] at hget
        obtain ⟨x1, x2⟩ := x
        simp only at hj
        simp only [Option.some_inj] at hget
        simp only [Prod.mk.injEq]
        exact ⟨by omega, hget.symm⟩
      | succ j =>
        right
        exact ⟨j, by omega, by simpa using hget⟩

theorem enumFrom_fst_lt {α : Type} {i : Nat} {l : List α} {x : Nat × α}
    (hx : x ∈ enumFrom i l) : x.1 < i + l.length := by
  obtain ⟨j, hj, hget⟩ := mem_enumFrom.mp hx
  obtain ⟨hlt, _⟩ := List.getElem?_eq_some.mp hget
  omega

theorem enumFrom_fst_ge {α : Type} {i : Nat} {l : List α} {x : Nat × α}
    (hx : x ∈ enumFrom i l) : i ≤ x.1 := by
  obtain ⟨j, hj, _⟩ := mem_enumFrom.mp hx
  omega

theorem enumFrom_pairwise {α : Type} (i : Nat) (l : List α) :
    (enumFrom i l).Pairwise (fun a b => a.1 < b.1) := by
  induction l generalizing i with
  | nil => exact List.Pairwise.nil
  | cons a rest ih =>
    refine List.Pairwise.cons (fun y hy => ?_) (ih (i + 1))
    exact lt_of_lt_of_le (Nat.lt_succ_self i) (enumFrom_fst_ge hy)

theorem enumFrom_fst_inj {α : Type} {i : Nat} {l : List α} {x y : Nat × α}
    (hx : x ∈ enumFrom i l) (hy : y ∈ enumFrom i l) (h : x.1 = y.1) : x = y := by
  obtain ⟨j, hj, hget⟩ := mem_enumFrom.mp hx
  obtain ⟨j', hj', hget'⟩ := mem_enumFrom.mp hy
  obtain ⟨x1, x2⟩ := x
  obtain ⟨y1, y2⟩ := y
  simp only at hj hj' h
  have : j = j' := by omega
  subst this
  rw [hget] at hget'
  simp only [Option.some_inj] at hget'
  simp [h, hget']

theorem enumFrom_getElem? {α : Type} (i : Nat) (l : List α) (j : Nat) :
    (enumFrom i l)[j]? = l[j]?.map (fun a => (i + j, a)) := by
  induction l generalizing i j with
  | nil => simp [enumFrom]
  | cons a rest ih =>
    cases j with
    | zero => simp [enumFrom]
    | succ j => simp only [enumFrom, List.getElem?_cons_succ, ih]; ring_nf

theorem enumFrom_filter_map {α β : Type} (q : α → Bool) (h : α → β) :
    ∀ (i : Nat) (l : List α),
    ((enumFrom i l).filter (fun x => q x.2)).map (fun x => h x.2) = (l.filter q).map h := by
  intro i l
  induction l generalizing i with
  | nil => rfl
  | cons a rest ih =>
    by_cases hq : q a
    · simp [enumFrom, List.filter_cons, hq, ih]
    · simp only [Bool.not_eq_true] at hq
      simp [enumFrom, List.filter_cons, hq, ih]

/-! ## Utility: association-list and bucket lemmas -/

theorem lookupAssoc_nil {α : Type} (key : String) : lookupAssoc ([] : List (String × α)) key = none := rfl

theorem lookupAssoc_cons {α : Type} (k : String) (v : α) (rest : List (String × α)) (key : String) :
    lookupAssoc ((k, v) :: rest) key = if k == key then some v else lookupAssoc rest key := by
  simp only [lookupAssoc, List.find?]
  by_cases h : k == key
  · simp [h]
  · simp only [Bool.not_eq_true] at h; simp [h]

theorem findBucket_nil (k : Nat) : findBucket [] k = none := rfl

theorem findBucket_cons (k' : Nat) (b : VersionBucket) (rest : List (Nat × VersionBucket)) (k : Nat) :
    findBucket ((k', b) :: rest) k = if k' = k then some b else findBucket rest k := by
  simp only [findBucket, List.find?]
  by_cases h : k' = k
  · simp [h]
  · have : (k' == k) = false := by simp [h]
    simp [this, h]

theorem findBucket_bucketPush (bs : List (Nat × VersionBucket)) (version : Nat) (e : Elem)
    (m : DocumentMetaData) (k : Nat) :
    findBucket (bucketPush bs version e m) k =
      if version = k then
        match findBucket bs k with
        | none => some ⟨[e], [m]⟩
        | some b => some ⟨b.documents ++ [e], b.metaData ++ [m]⟩
      else findBucket bs k := by
  induction bs with
  | nil =>
    by_cases h : version = k <;> simp [bucketPush, findBucket_cons, findBucket_nil, h]
  | cons kb rest ih =>
    obtain ⟨k', b⟩ := kb
    by_cases h1 : k' = version
    · subst h1
      by_cases h2 : k' = k
      · subst h2; simp [bucketPush, findBucket_cons]
      · simp [bucketPush, findBucket_cons, h2]
    · by_cases h2 : k' = k
      · subst h2
        have : version ≠ k' := fun h => h1 h.symm
        simp [bucketPush, h1, findBucket_cons, this]
      · simp [bucketPush, h1, findBucket_cons, h2, ih]

theorem findBucket_setBucket (bs : List (Nat × VersionBucket)) (k' : Nat) (b : VersionBucket)
    (k : Nat) :
    findBucket (setBucket bs k' b) k = if k' = k then some b else findBucket bs k := by
  induction bs with
  | nil =>
    by_cases h : k' = k <;> simp [setBucket, findBucket_cons, findBucket_nil, h]
  | cons kb rest ih =>
    obtain ⟨k0, b0⟩ := kb
    by_cases h1 : k0 = k'
    · subst h1
      by_cases h2 : k0 = k
      · subst h2; simp [setBucket, findBucket_cons]
      · simp [setBucket, findBucket_cons, h2]
    · by_cases h2 : k0 = k
      · subst h2
        have : k' ≠ k0 := fun h => h1 h.symm
        simp [setBucket, h1, findBucket_cons, this]
      · simp [setBucket, h1, findBucket_cons, h2, ih]

theorem findBucket_eq_none_iff (bs : List (Nat × VersionBucket)) (k : Nat) :
    findBucket bs k = none ↔ k ∉ bs.map Prod.fst := by
  induction bs with
  | nil => simp [findBucket_nil]
  | cons kb rest ih =>
    obtain ⟨k', b⟩ := kb
    rw [findBucket_cons]
    by_cases h : k' = k
    · simp [h]
    · simp only [h, if_false, ih, List.map_cons, List.mem_cons]
      constructor
      · intro hk
        exact fun hc => hc.elim (fun he => h he.symm) hk
      · intro hk hmem
        exact hk (Or.inr hmem)

/-! ## Utility: minKeyOf -/

theorem foldl_min_le_init (ks : List Nat) (a : Nat) : ks.foldl Nat.min a ≤ a := by
  induction ks generalizing a with
  | nil => simp
  | cons k rest ih =>
    calc (k :: rest).foldl Nat.min a = rest.foldl Nat.min (Nat.min a k) := rfl
    _ ≤ Nat.min a k := ih _
    _ ≤ a := Nat.min_le_left _ _

theorem foldl_min_le_mem (ks : List Nat) (a : Nat) (x : Nat) (hx : x ∈ ks) :
    ks.foldl Nat.min a ≤ x := by
  induction ks generalizing a with
  | nil => simp at hx
  | cons k rest ih =>
    rcases List.mem_cons.mp hx with rfl | hx'
    · calc rest.foldl Nat.min (Nat.min a x) ≤ Nat.min a x := foldl_min_le_init _ _
      _ ≤ x := Nat.min_le_right _ _
    · exact ih _ hx'

theorem foldl_min_mem (ks : List Nat) (a : Nat) :
    ks.foldl Nat.min a = a ∨ ks.foldl Nat.min a ∈ ks := by
  induction ks generalizing a with
  | nil => left; rfl
  | cons k rest ih =>
    rcases ih (Nat.min a k) with h | h
    · rcases Nat.le_total a k with hle | hle
      · left
        rw [show (k :: rest).foldl Nat.min a = rest.foldl Nat.min (Nat.min a k) from rfl, h]
        rw [Nat.min_eq_min]
        omega
      · right
        rw [show (k :: rest).foldl Nat.min a = rest.foldl Nat.min (Nat.min a k) from rfl, h]
        have hmin : Nat.min a k = k := by rw [Nat.min_eq_min]; omega
        rw [hmin]
        exact List.mem_cons_self _ _
    · right
      exact List.mem_cons_of_mem _ h

theorem minKeyOf_mem (ks : List Nat) (h : ks ≠ []) : minKeyOf ks ∈ ks := by
  match ks with
  | [] => exact absurd rfl h
  | k :: rest =>
    rcases foldl_min_mem rest k with h' | h'
    · rw [minKeyOf, h']; exact List.mem_cons_self _ _
    · exact List.mem_cons_of_mem _ h'

theorem minKeyOf_le (ks : List Nat) (x : Nat) (hx : x ∈ ks) : minKeyOf ks ≤ x := by
  match ks with
  | [] => simp at hx
  | k :: rest =>
    rcases List.mem_cons.mp hx with rfl | hx'
    · exact foldl_min_le_init _ _
    · exact foldl_min_le_mem _ _ _ hx'

/-! ## Characterization of transformInput -/

theorem fieldVersionLt_truthy {fv : FieldVal} {w : Option Nat}
    (h : fieldVersionLt fv w = true) : fv.truthy = true := by
  cases fv <;> cases w <;> simp_all [fieldVersionLt, FieldVal.truthy]

theorem embeddedStep_eq (ctx : Context) (e : Elem) (acc : Bool × List (String × List FieldVal))
    (name : String) :
    embeddedStep ctx e acc name =
      (acc.1 || fieldVersionLt (e.andField name) (lookupAssoc ctx.embeddedSchemaVersions name),
        embPush acc.2 name (e.andField name)) := by
  simp only [embeddedStep, Prod.mk.injEq]
  refine ⟨?_, trivial⟩
  by_cases h1 : acc.1
  · simp [h1]
  · simp only [h1, Bool.false_or, Bool.not_false, Bool.and_true, Bool.true_and]
    by_cases h2 : fieldVersionLt (e.andField name) (lookupAssoc ctx.embeddedSchemaVersions name)
    · simp [h2, fieldVersionLt_truthy h2]
    · simp only [Bool.not_eq_true] at h2
      simp [h2, h1]

theorem foldl_embeddedStep_fst (ctx : Context) (e : Elem) (names : List String) :
    ∀ (b : Bool) (ls : List (String × List FieldVal)),
    (names.foldl (embeddedStep ctx e) (b, ls)).1 = (b || wbuEmbedded ctx names e) := by
  induction names with
  | nil => intro b ls; simp [wbuEmbedded]
  | cons n ns ih =>
    intro b ls
    rw [List.foldl_cons, embeddedStep_eq, ih]
    simp [wbuEmbedded, Bool.or_assoc]

theorem foldl_embeddedStep_snd (ctx : Context) (e : Elem) (names : List String) :
    ∀ (b : Bool) (ls : List (String × List FieldVal)),
    (names.foldl (embeddedStep ctx e) (b, ls)).2 =
      names.foldl (fun acc n => embPush acc n (e.andField n)) ls := by
  induction names with
  | nil => intro b ls; rfl
  | cons n ns ih =>
    intro b ls
    rw [List.foldl_cons, embeddedStep_eq, ih, List.foldl_cons]

theorem appendBucket_nil (ob : Option VersionBucket) : appendBucket ob [] = ob := by
  cases ob with
  | none => rfl
  | some b => simp [appendBucket]

theorem transformInputGo_buckets (ctx : Context) (names : List String) :
    ∀ (input : List Elem) (i : Nat) (acc : TransformedInput) (k : Nat),
    findBucket (transformInputGo ctx names i input acc).documentsByVersion k =
      appendBucket (findBucket acc.documentsByVersion k)
        (bucketItems ctx names (enumFrom i input) k) := by
  intro input
  induction input with
  | nil =>
    intro i acc k
    simp [transformInputGo, enumFrom, bucketItems, appendBucket_nil]
  | cons e rest ih =>
    intro i acc k
    rw [show transformInputGo ctx names i (e :: rest) acc =
      transformInputGo ctx names (i + 1) rest
        ⟨bucketPush acc.documentsByVersion (elemVersion ctx e) e
          ⟨i, (names.foldl (embeddedStep ctx e)
              (decide (elemVersion ctx e < ctx.schemaVersion), acc.embeddedDocuments)).1,
            if ctx.hasEmbeddedDocuments then
              match e with
              | .doc d => some (jsKeys d)
              | _ => none
            else none⟩,
          (names.foldl (embeddedStep ctx e)
            (decide (elemVersion ctx e < ctx.schemaVersion), acc.embeddedDocuments)).2⟩ from rfl]
    rw [ih]
    have hmeta : (⟨i, (names.foldl (embeddedStep ctx e)
        (decide (elemVersion ctx e < ctx.schemaVersion), acc.embeddedDocuments)).1,
        if ctx.hasEmbeddedDocuments then
          match e with
          | .doc d => some (jsKeys d)
          | _ => none
        else none⟩ : DocumentMetaData) = mkMeta ctx names i e := by
      simp [mkMeta, foldl_embeddedStep_fst]
    rw [hmeta]
    simp only [findBucket_bucketPush]
    have hitems : bucketItems ctx names (enumFrom i (e :: rest)) k =
        if elemVersion ctx e = k then
          (e, mkMeta ctx names i e) :: bucketItems ctx names (enumFrom (i + 1) rest) k
        else bucketItems ctx names (enumFrom (i + 1) rest) k := by
      by_cases hv : elemVersion ctx e = k
      · simp [bucketItems, enumFrom, List.filter_cons, hv]
      · have : (elemVersion ctx e == k) = false := by simp [hv]
        simp [bucketItems, enumFrom, List.filter_cons, this, hv]
    rw [hitems]
    by_cases hv : elemVersion ctx e = k
    · simp only [hv, if_true]
      cases hfb : findBucket acc.documentsByVersion k with
      | none =>
        simp [appendBucket, optBucket, pairsBucket]
      | some b =>
        simp [appendBucket, pairsBucket]
    · simp [hv]

theorem transformInput_bucket (ctx : Context) (input : List Elem) (projection : Projection)
    (k : Nat) :
    findBucket (transformInput ctx input projection).documentsByVersion k =
      optBucket (bucketItems ctx (projectedEmbeddedDocumentNames ctx projection)
        (enumFrom 0 input) k) := by
  rw [transformInput, transformInputGo_buckets]
  rfl

theorem optBucket_ne_none {l : List (Elem × DocumentMetaData)} :
    optBucket l ≠ none ↔ l ≠ [] := by
  cases l with
  | nil => simp [optBucket]
  | cons a t => simp [optBucket]

theorem bucketItems_ne_nil {ctx : Context} {names : List String} {i : Nat} {input : List Elem}
    {k : Nat} :
    bucketItems ctx names (enumFrom i input) k ≠ [] ↔ ∃ e ∈ input, elemVersion ctx e = k := by
  simp only [bucketItems, ne_eq, List.map_eq_nil_iff, List.filter_eq_nil_iff, not_forall]
  constructor
  · rintro ⟨x, hx, hk⟩
    simp only [Decidable.not_not, beq_iff_eq] at hk
    refine ⟨x.2, ?_, hk⟩
    rw [← enumFrom_map_snd i input]
    exact List.mem_map_of_mem Prod.snd hx
  · rintro ⟨e, he, hk⟩
    rw [← enumFrom_map_snd i input] at he
    obtain ⟨x, hx, hxe⟩ := List.mem_map.mp he
    exact ⟨x, hx, by simp [hxe, hk]⟩

theorem transformInput_keys_mem (ctx : Context) (input : List Elem) (projection : Projection)
    (k : Nat) :
    k ∈ (transformInput ctx input projection).documentsByVersion.map Prod.fst ↔
      ∃ e ∈ input, elemVersion ctx e = k := by
  have h1 : (k ∈ (transformInput ctx input projection).documentsByVersion.map Prod.fst) ↔
      ¬ (findBucket (transformInput ctx input projection).documentsByVersion k = none) := by
    rw [findBucket_eq_none_iff]; tauto
  rw [h1, transformInput_bucket, show
    (¬ (optBucket (bucketItems ctx (projectedEmbeddedDocumentNames ctx projection)
      (enumFrom 0 input) k) = none)) ↔
    bucketItems ctx (projectedEmbeddedDocumentNames ctx projection) (enumFrom 0 input) k ≠ []
    from ⟨fun h => optBucket_ne_none.mp h, fun h => optBucket_ne_none.mpr h⟩]
  exact bucketItems_ne_nil

/-! ## Characterization of the embedded-documents lists -/

theorem foldl_embPush_notmem (g : String → FieldVal) :
    ∀ (ns : List String) (n : String) (x : List FieldVal) (l : List (String × List FieldVal)),
    (∀ m ∈ ns, m ≠ n) →
    ns.foldl (fun acc m => embPush acc m (g m)) ((n, x) :: l) =
      (n, x) :: ns.foldl (fun acc m => embPush acc m (g m)) l := by
  intro ns
  induction ns with
  | nil => intro n x l _; rfl
  | cons m ms ih =>
    intro n x l h
    have hm : m ≠ n := h m (List.mem_cons_self _ _)
    rw [List.foldl_cons]
    have hnm : ¬ (n = m) := fun hc => hm hc.symm
    have : embPush ((n, x) :: l) m (g m) = (n, x) :: embPush l m (g m) := by
      simp [embPush, hnm]
    rw [this, List.foldl_cons, ih n x _ (fun m' hm' => h m' (List.mem_cons_of_mem _ hm'))]

theorem foldl_embPush_maps (names : List String) (hnd : names.Nodup)
    (f : String → List FieldVal) (g : String → FieldVal) :
    names.foldl (fun acc m => embPush acc m (g m)) (names.map (fun n => (n, f n))) =
      names.map (fun n => (n, f n ++ [g n])) := by
  induction names with
  | nil => rfl
  | cons n ns ih =>
    obtain ⟨hn, hns⟩ := List.nodup_cons.mp hnd
    rw [List.map_cons, List.foldl_cons]
    have h1 : embPush ((n, f n) :: ns.map (fun m => (m, f m))) n (g n) =
        (n, f n ++ [g n]) :: ns.map (fun m => (m, f m)) := by
      simp [embPush]
    rw [h1, foldl_embPush_notmem g ns n _ _ (fun m hm => fun hc => hn (hc ▸ hm)), ih hns,
      List.map_cons]

theorem transformInputGo_embedded (ctx : Context) (names : List String) (hnd : names.Nodup) :
    ∀ (input : List Elem) (i : Nat) (bs : List (Nat × VersionBucket))
      (f : String → List FieldVal),
    (transformInputGo ctx names i input ⟨bs, names.map (fun n => (n, f n))⟩).embeddedDocuments =
      names.map (fun n => (n, f n ++ input.map (fun e => e.andField n))) := by
  intro input
  induction input with
  | nil =>
    intro i bs f
    simp [transformInputGo]
  | cons e rest ih =>
    intro i bs f
    rw [show transformInputGo ctx names i (e :: rest) ⟨bs, names.map (fun n => (n, f n))⟩ =
      transformInputGo ctx names (i + 1) rest
        ⟨bucketPush bs (elemVersion ctx e) e
          ⟨i, (names.foldl (embeddedStep ctx e)
              (decide (elemVersion ctx e < ctx.schemaVersion), names.map (fun n => (n, f n)))).1,
            if ctx.hasEmbeddedDocuments then
              match e with
              | .doc d => some (jsKeys d)
              | _ => none
            else none⟩,
          (names.foldl (embeddedStep ctx e)
            (decide (elemVersion ctx e < ctx.schemaVersion), names.map (fun n => (n, f n)))).2⟩
      from rfl]
    rw [show (names.foldl (embeddedStep ctx e)
        (decide (elemVersion ctx e < ctx.schemaVersion), names.map (fun n => (n, f n)))).2 =
      names.foldl (fun acc n => embPush acc n (e.andField n)) (names.map (fun n => (n, f n)))
      from foldl_embeddedStep_snd ctx e names _ _]
    rw [foldl_embPush_maps names hnd f (fun n => e.andField n)]
    rw [ih (i + 1) _ (fun n => f n ++ [e.andField n])]
    refine List.map_congr_left (fun n _ => ?_)
    simp

theorem transformInput_embedded (ctx : Context) (input : List Elem) (projection : Projection)
    (hnd : (projectedEmbeddedDocumentNames ctx projection).Nodup) :
    (transformInput ctx input projection).embeddedDocuments =
      (projectedEmbeddedDocumentNames ctx projection).map
        (fun n => (n, input.map (fun e => e.andField n))) := by
  rw [transformInput]
  have := transformInputGo_embedded ctx (projectedEmbeddedDocumentNames ctx projection) hnd
    input 0 [] (fun _ => [])
  simp only [List.nil_append] at this
  exact this

theorem lookupAssoc_map_self {α : Type} (names : List String) (F : String → α) (name : String)
    (h : name ∈ names) :
    lookupAssoc (names.map (fun n => (n, F n))) name = some (F name) := by
  induction names with
  | nil => simp at h
  | cons n ns ih =>
    rw [List.map_cons, lookupAssoc_cons]
    by_cases hn : n == name
    · simp only [hn, if_true]
      rw [show n = name from by simpa using hn]
    · simp only [hn, Bool.false_eq_true, if_false]
      rcases List.mem_cons.mp h with rfl | hmem
      · simp at hn
      · exact ih hmem

/-! ## The two-pointer merge on (document, metadata) pairs -/

theorem mergeZ_nil_left (n : List (Elem × DocumentMetaData)) : mergeZ [] n = n := by
  cases n <;> simp [mergeZ]

theorem mergeZ_nil_right (c : List (Elem × DocumentMetaData)) : mergeZ c [] = c := by
  cases c <;> simp [mergeZ]

theorem mergeZ_cons_cons (ch : Elem × DocumentMetaData) (ct : List (Elem × DocumentMetaData))
    (nh : Elem × DocumentMetaData) (nt : List (Elem × DocumentMetaData)) :
    mergeZ (ch :: ct) (nh :: nt) =
      if nh.2.index < ch.2.index then nh :: mergeZ (ch :: ct) nt
      else ch :: mergeZ ct (nh :: nt) := by
  rw [mergeZ]

theorem mergeLoop_eq_mergeZ :
    ∀ (fuel : Nat) (c n : List (Elem × DocumentMetaData)),
    fuel = c.length + n.length →
    mergeLoop fuel (c.map Prod.fst) (c.map Prod.snd) (n.map Prod.fst) (n.map Prod.snd) =
      ((mergeZ c n).map Prod.fst, (mergeZ c n).map Prod.snd) := by
  intro fuel
  induction fuel with
  | zero =>
    intro c n h
    have hc : c = [] := List.eq_nil_of_length_eq_zero (by omega)
    have hn : n = [] := List.eq_nil_of_length_eq_zero (by omega)
    subst hc; subst hn
    rw [mergeZ_nil_left]
    rfl
  | succ fuel ih =>
    intro c n h
    cases c with
    | nil =>
      rw [mergeZ_nil_left]
      simp [mergeLoop]
    | cons ch ct =>
      cases n with
      | nil =>
        rw [mergeZ_nil_right]
        simp [mergeLoop]
      | cons nh nt =>
        rw [mergeZ_cons_cons]
        simp only [List.map_cons]
        rw [show mergeLoop (Nat.succ fuel) (ch.1 :: ct.map Prod.fst) (ch.2 :: ct.map Prod.snd)
            (nh.1 :: nt.map Prod.fst) (nh.2 :: nt.map Prod.snd) =
          (if nh.2.index < ch.2.index then
            let r := mergeLoop fuel (ch.1 :: ct.map Prod.fst) (ch.2 :: ct.map Prod.snd)
              ((nh.1 :: nt.map Prod.fst).drop 1) (nt.map Prod.snd)
            ((nh.1 :: nt.map Prod.fst).headD .jsUndefined :: r.1, nh.2 :: r.2)
          else
            let r := mergeLoop fuel ((ch.1 :: ct.map Prod.fst).drop 1) (ct.map Prod.snd)
              (nh.1 :: nt.map Prod.fst) (nh.2 :: nt.map Prod.snd)
            ((ch.1 :: ct.map Prod.fst).headD .jsUndefined :: r.1, ch.2 :: r.2)) from rfl]
        by_cases hlt : nh.2.index < ch.2.index
        · simp only [hlt, if_true, List.drop_succ_cons, List.drop_zero, List.headD_cons]
          have hrec := ih (ch :: ct) nt (by simp at h ⊢; omega)
          simp only [List.map_cons] at hrec
          rw [hrec]
          simp [hlt]
        · simp only [hlt, if_false, List.drop_succ_cons, List.drop_zero, List.headD_cons]
          have hrec := ih ct (nh :: nt) (by simp at h ⊢; omega)
          simp only [List.map_cons] at hrec
          rw [hrec]
          simp [hlt]

theorem mergeZ_length (c n : List (Elem × DocumentMetaData)) :
    (mergeZ c n).length = c.length + n.length := by
  induction c generalizing n with
  | nil => rw [mergeZ_nil_left]; simp
  | cons ch ct ihc =>
    induction n with
    | nil => rw [mergeZ_nil_right]; simp
    | cons nh nt ihn =>
      rw [mergeZ_cons_cons]
      by_cases hlt : nh.2.index < ch.2.index
      · simp only [hlt, if_true, List.length_cons, ihn]
        omega
      · simp only [hlt, if_false, List.length_cons, ihc (nh :: nt)]
        omega

theorem mergeZ_mem (c n : List (Elem × DocumentMetaData)) (x : Elem × DocumentMetaData) :
    x ∈ mergeZ c n ↔ x ∈ c ∨ x ∈ n := by
  induction c generalizing n with
  | nil => rw [mergeZ_nil_left]; simp
  | cons ch ct ihc =>
    induction n with
    | nil => rw [mergeZ_nil_right]; simp
    | cons nh nt ihn =>
      rw [mergeZ_cons_cons]
      by_cases hlt : nh.2.index < ch.2.index
      · simp only [hlt, if_true, List.mem_cons, ihn]
        tauto
      · simp only [hlt, if_false, List.mem_cons, ihc (nh :: nt), List.mem_cons]
        tauto

theorem mergeZ_sorted : ∀ (c n : List (Elem × DocumentMetaData)),
    c.Pairwise (fun a b => a.2.index < b.2.index) →
    n.Pairwise (fun a b => a.2.index < b.2.index) →
    (∀ a ∈ c, ∀ b ∈ n, a.2.index ≠ b.2.index) →
    (mergeZ c n).Pairwise (fun a b => a.2.index < b.2.index) := by
  intro c
  induction c with
  | nil =>
    intro n hc hn hd
    rw [mergeZ_nil_left]; exact hn
  | cons ch ct ihc =>
    intro n
    induction n with
    | nil =>
      intro hc hn hd
      rw [mergeZ_nil_right]; exact hc
    | cons nh nt ihn =>
      intro hc hn hd
      obtain ⟨hch, hct⟩ := List.pairwise_cons.mp hc
      obtain ⟨hnh, hnt⟩ := List.pairwise_cons.mp hn
      rw [mergeZ_cons_cons]
      by_cases hlt : nh.2.index < ch.2.index
      · simp only [hlt, if_true]
        refine List.pairwise_cons.mpr ⟨?_, ?_⟩
        · intro z hz
          rcases (mergeZ_mem _ _ _).mp hz with hzc | hzn
          · rcases List.mem_cons.mp hzc with rfl | hzc'
            · exact hlt
            · exact lt_trans hlt (hch z hzc')
          · exact hnh z hzn
        · exact ihn hc hnt (fun a ha => fun b hb => hd a ha b (List.mem_cons_of_mem _ hb))
      · simp only [hlt, if_false]
        have hne : ch.2.index ≠ nh.2.index :=
          hd ch (List.mem_cons_self _ _) nh (List.mem_cons_self _ _)
        have hchnh : ch.2.index < nh.2.index := by omega
        refine List.pairwise_cons.mpr ⟨?_, ?_⟩
        · intro z hz
          rcases (mergeZ_mem _ _ _).mp hz with hzc | hzn
          · exact hch z hzc
          · rcases List.mem_cons.mp hzn with rfl | hzn'
            · exact hchnh
            · exact lt_trans hchnh (hnh z hzn')
        · exact ihc (nh :: nt) hct hn (fun a ha => fun b hb => hd a (List.mem_cons_of_mem _ ha) b hb)

/-- mergeZ of the two complementary filters of an index-sorted master list, with
index-compatible pair builders applied to the two sides, flattens back to the
master list in order. -/
theorem mergeZ_partition {α : Type} (l : List α)
    (p : α → Bool)
    (f g : α → Elem × DocumentMetaData)
    (hidx : ∀ z, (f z).2.index = (g z).2.index)
    (hsorted : l.Pairwise (fun a b => (g a).2.index < (g b).2.index)) :
    mergeZ ((l.filter p).map f) ((l.filter (fun x => !p x)).map g) =
      l.map (fun x => if p x then f x else g x) := by
  induction l with
  | nil => simp [mergeZ_nil_left]
  | cons x xs ih =>
    obtain ⟨hx, hxs⟩ := List.pairwise_cons.mp hsorted
    by_cases hp : p x
    · have hfiltP : (x :: xs).filter p = x :: xs.filter p := by
        simp [List.filter_cons, hp]
      have hfiltN : (x :: xs).filter (fun z => !p z) = xs.filter (fun z => !p z) := by
        simp [List.filter_cons, hp]
      have hrhs : (x :: xs).map (fun z => if p z then f z else g z) =
          f x :: xs.map (fun z => if p z then f z else g z) := by
        simp [hp]
      rw [hfiltP, hfiltN, hrhs, List.map_cons]
      cases hB : (xs.filter (fun z => !p z)).map g with
      | nil =>
        rw [mergeZ_nil_right]
        have hall : ∀ y ∈ xs, p y = true := by
          intro y hy
          have h1 := List.map_eq_nil_iff.mp hB
          have h2 := List.filter_eq_nil_iff.mp h1 y hy
          simpa using h2
        have hfx : xs.filter p = xs := List.filter_eq_self.mpr hall
        rw [hfx]
        refine congrArg (f x :: ·) ?_
        exact (List.map_congr_left (fun y hy => by simp [hall y hy]))
      | cons bh bt =>
        have hbh : bh ∈ (xs.filter (fun z => !p z)).map g := by
          rw [hB]; exact List.mem_cons_self _ _
        obtain ⟨y, hy, hyg⟩ := List.mem_map.mp hbh
        have hymem : y ∈ xs := (List.mem_filter.mp hy).1
        have hcond : ¬ (bh.2.index < (f x).2.index) := by
          rw [← hyg, hidx x]
          have := hx y hymem
          omega
        rw [mergeZ_cons_cons]
        simp only [hcond, if_false]
        rw [← hB, ih hxs]
    · have hp' : p x = false := by simpa using hp
      have hfiltP : (x :: xs).filter p = xs.filter p := by
        simp [List.filter_cons, hp']
      have hfiltN : (x :: xs).filter (fun z => !p z) = x :: xs.filter (fun z => !p z) := by
        simp [List.filter_cons, hp']
      have hrhs : (x :: xs).map (fun z => if p z then f z else g z) =
          g x :: xs.map (fun z => if p z then f z else g z) := by
        simp [hp']
      rw [hfiltP, hfiltN, hrhs, List.map_cons]
      cases hA : (xs.filter p).map f with
      | nil =>
        rw [mergeZ_nil_left]
        have hall : ∀ y ∈ xs, p y = false := by
          intro y hy
          have h1 := List.map_eq_nil_iff.mp hA
          have h2 := List.filter_eq_nil_iff.mp h1 y hy
          simpa using h2
        have hfx : xs.filter (fun z => !p z) = xs := by
          refine List.filter_eq_self.mpr (fun y hy => by simp [hall y hy])
        rw [hfx]
        refine congrArg (g x :: ·) ?_
        exact (List.map_congr_left (fun y hy => by simp [hall y hy]))
      | cons ah at' =>
        have hah : ah ∈ (xs.filter p).map f := by
          rw [hA]; exact List.mem_cons_self _ _
        obtain ⟨y, hy, hyf⟩ := List.mem_map.mp hah
        have hymem : y ∈ xs := (List.mem_filter.mp hy).1
        have hcond : (g x).2.index < ah.2.index := by
          rw [← hyf, hidx y]
          exact hx y hymem
        rw [mergeZ_cons_cons]
        simp only [hcond, if_true]
        rw [← hA, ih hxs]

/-! ## The driver master invariant (per-document revisions) -/

theorem migrateTo_of_ge (ctx : Context) (t : Nat → Elem → Elem) (k : Nat) (e : Elem)
    (h : k ≤ elemVersion ctx e) : migrateTo ctx t k e = e := by
  cases k with
  | zero => rfl
  | succ k =>
    rw [migrateTo]
    have : ¬ (elemVersion ctx e ≤ k) := by omega
    simp [this]

theorem migrateTo_succ_of_le (ctx : Context) (t : Nat → Elem → Elem) (k : Nat) (e : Elem)
    (h : elemVersion ctx e ≤ k) :
    migrateTo ctx t (k + 1) e = t k (migrateTo ctx t k e) := by
  rw [migrateTo]
  simp [h]

theorem migrateTo_doc (ctx : Context) (t : Nat → Elem → Elem)
    (Ht : ∀ i, i < ctx.schemaVersion → ∀ e, ∃ d, t i e = Elem.doc d ∧ d.v = i + 1)
    (k : Nat) (e : Elem) (hlt : elemVersion ctx e < k) (hk : k ≤ ctx.schemaVersion) :
    ∃ d, migrateTo ctx t k e = Elem.doc d ∧ d.v = k := by
  cases k with
  | zero => omega
  | succ k =>
    rw [migrateTo_succ_of_le ctx t k e (by omega)]
    exact Ht k (by omega) _

theorem migrateTo_eq_applyChain (ctx : Context) (t : Nat → Elem → Elem) (k : Nat) (e : Elem)
    (h : elemVersion ctx e ≤ k) :
    migrateTo ctx t k e = applyChain t (elemVersion ctx e) k e := by
  induction k with
  | zero =>
    have hv : elemVersion ctx e = 0 := by omega
    simp [migrateTo, applyChain, hv]
  | succ k ih =>
    by_cases hle : elemVersion ctx e ≤ k
    · rw [migrateTo_succ_of_le ctx t k e hle, ih hle, applyChain, applyChain,
        show k + 1 - elemVersion ctx e = (k - elemVersion ctx e) + 1 from by omega,
        List.range'_concat, List.foldl_append]
      simp only [List.foldl_cons, List.foldl_nil]
      rw [show elemVersion ctx e + 1 * (k - elemVersion ctx e) = k from by omega]
    · have hv : elemVersion ctx e = k + 1 := by omega
      rw [migrateTo_of_ge ctx t (k + 1) e (by omega), applyChain, hv]
      simp

theorem optBucket_getD (l : List (Elem × DocumentMetaData)) :
    (optBucket l).getD ⟨[], []⟩ = pairsBucket l := by
  cases l with
  | nil => rfl
  | cons a t => simp [optBucket, pairsBucket]

theorem driveStep_good (ctx : Context) (t : Nat → Elem → Elem) (names : List String)
    (input : List Elem) (v : Nat)
    (hrev : ∀ i, i < ctx.schemaVersion → ctx.revisions[i]? = some (.update (t i)))
    (Ht : ∀ i, i < ctx.schemaVersion → ∀ e, ∃ d, t i e = Elem.doc d ∧ d.v = i + 1)
    (hv : v < ctx.schemaVersion)
    (buckets : List (Nat × VersionBucket))
    (hGood : GoodState ctx t names input v buckets) :
    driveStep ctx buckets v =
      .ok (setBucket buckets (v + 1) (pairsBucket (stageList ctx t names input (v + 1)))) ∧
    GoodState ctx t names input (v + 1)
      (setBucket buckets (v + 1) (pairsBucket (stageList ctx t names input (v + 1)))) := by
  have hrevAt : revisionAt ctx v = .update (t v) := by
    rw [revisionAt, List.getD_eq_getElem?_getD, hrev v hv]
    rfl
  have hbv := hGood.1
  -- the transformed documents
  have hdocs : applyRevision (revisionAt ctx v)
      ((pairsBucket (stageList ctx t names input v)).documents) =
      ((enumFrom 0 input).filter (fun x => decide (elemVersion ctx x.2 ≤ v))).map
        (fun x => migrateTo ctx t (v + 1) x.2) := by
    rw [hrevAt]
    simp only [applyRevision, pairsBucket, stageList, List.map_map]
    refine List.map_congr_left (fun x hx => ?_)
    have hle : elemVersion ctx x.2 ≤ v := by
      have := (List.mem_filter.mp hx).2
      simpa using this
    simp only [Function.comp, itemAt]
    exact (migrateTo_succ_of_le ctx t v x.2 hle).symm
  have hcheck : (((enumFrom 0 input).filter (fun x => decide (elemVersion ctx x.2 ≤ v))).map
      (fun x => migrateTo ctx t (v + 1) x.2)).all
      (fun d => checkVersionTag d (v + 1)) = true := by
    rw [List.all_eq_true]
    intro y hy
    obtain ⟨x, hx, rfl⟩ := List.mem_map.mp hy
    have hle : elemVersion ctx x.2 ≤ v := by
      have := (List.mem_filter.mp hx).2
      simpa using this
    obtain ⟨d, hd, hdv⟩ := migrateTo_doc ctx t Ht (v + 1) x.2 (by omega) (by omega)
    rw [hd, checkVersionTag, hdv]
    simp
  -- the next-version bucket
  have hnext : (findBucket buckets (v + 1)).getD ⟨[], []⟩ =
      pairsBucket (bucketItems ctx names (enumFrom 0 input) (v + 1)) := by
    rw [hGood.2 (v + 1) (Nat.lt_succ_self v), optBucket_getD]
  -- pair-list views of the two merge arguments
  set M := (enumFrom 0 input).filter (fun x => decide (elemVersion ctx x.2 ≤ v + 1)) with hM
  have hMfiltP : M.filter (fun x => decide (elemVersion ctx x.2 ≤ v)) =
      (enumFrom 0 input).filter (fun x => decide (elemVersion ctx x.2 ≤ v)) := by
    rw [hM, List.filter_filter]
    refine List.filter_congr (fun x _ => ?_)
    by_cases h : elemVersion ctx x.2 ≤ v
    · have h' : elemVersion ctx x.2 ≤ v + 1 := by omega
      simp [h, h']
    · simp [h]
  have hMfiltN : M.filter (fun x => !(decide (elemVersion ctx x.2 ≤ v))) =
      (enumFrom 0 input).filter (fun x => decide (elemVersion ctx x.2 = v + 1)) := by
    rw [hM, List.filter_filter]
    refine List.filter_congr (fun x _ => ?_)
    by_cases h : elemVersion ctx x.2 = v + 1
    · have h1 : ¬ (elemVersion ctx x.2 ≤ v) := by omega
      have h2 : elemVersion ctx x.2 ≤ v + 1 := by omega
      simp [h, h1, h2]
    · by_cases h2 : elemVersion ctx x.2 ≤ v
      · have h3 : elemVersion ctx x.2 ≤ v + 1 := by omega
        simp [h, h2, h3]
      · have h3 : ¬ (elemVersion ctx x.2 ≤ v + 1) := by omega
        simp [h, h2, h3]
  have hCN : mergeZ ((M.filter (fun x => decide (elemVersion ctx x.2 ≤ v))).map
        (itemAt ctx t names (v + 1)))
      ((M.filter (fun x => !(decide (elemVersion ctx x.2 ≤ v)))).map
        (itemAt ctx t names (v + 1))) =
      M.map (itemAt ctx t names (v + 1)) := by
    rw [mergeZ_partition M _ _ _ (fun z => rfl) ?hs]
    · refine List.map_congr_left (fun x _ => ?_)
      by_cases h : decide (elemVersion ctx x.2 ≤ v) = true <;> simp [h]
    case hs =>
      have h1 : M.Pairwise (fun a b => a.1 < b.1) :=
        (enumFrom_pairwise 0 input).filter _
      refine List.Pairwise.imp ?_ h1
      intro a b hab
      simpa [itemAt, mkMeta] using hab
  -- assemble the step
  have hstep : driveStep ctx buckets v =
      .ok (setBucket buckets (v + 1) (pairsBucket (stageList ctx t names input (v + 1)))) := by
    rw [driveStep, hbv]
    simp only [Option.getD_some]
    rw [hdocs, hcheck]
    simp only [if_true]
    rw [hnext]
    -- rewrite the mergeLoop as a mergeZ of pair lists
    have hc : ((enumFrom 0 input).filter (fun x => decide (elemVersion ctx x.2 ≤ v))).map
        (fun x => migrateTo ctx t (v + 1) x.2) =
        (((enumFrom 0 input).filter (fun x => decide (elemVersion ctx x.2 ≤ v))).map
          (itemAt ctx t names (v + 1))).map Prod.fst := by
      simp [itemAt, List.map_map, Function.comp]
    have hcm : (pairsBucket (stageList ctx t names input v)).metaData =
        (((enumFrom 0 input).filter (fun x => decide (elemVersion ctx x.2 ≤ v))).map
          (itemAt ctx t names (v + 1))).map Prod.snd := by
      simp [pairsBucket, stageList, itemAt, List.map_map, Function.comp]
    have hnd : (pairsBucket (bucketItems ctx names (enumFrom 0 input) (v + 1))).documents =
        (((enumFrom 0 input).filter (fun x => decide (elemVersion ctx x.2 = v + 1))).map
          (itemAt ctx t names (v + 1))).map Prod.fst := by
      simp only [pairsBucket, bucketItems, List.map_map]
      refine List.map_congr_left (fun x hx => ?_)
      have hv1 : elemVersion ctx x.2 = v + 1 := by
        have := (List.mem_filter.mp hx).2
        simpa using this
      simp only [Function.comp, itemAt]
      rw [migrateTo_of_ge ctx t (v + 1) x.2 (by omega)]
    have hnm : (pairsBucket (bucketItems ctx names (enumFrom 0 input) (v + 1))).metaData =
        (((enumFrom 0 input).filter (fun x => decide (elemVersion ctx x.2 = v + 1))).map
          (itemAt ctx t names (v + 1))).map Prod.snd := by
      simp only [pairsBucket, bucketItems, List.map_map]
      refine List.map_congr_left (fun x hx => ?_)
      simp [Function.comp, itemAt]
    rw [hc, hcm, hnd, hnm]
    rw [mergeLoop_eq_mergeZ _ _ _ (by simp)]
    rw [← hMfiltP, ← hMfiltN, hCN]
    rw [show M.map (itemAt ctx t names (v + 1)) = stageList ctx t names input (v + 1) from rfl]
    rfl
  refine ⟨hstep, ?_, ?_⟩
  · rw [findBucket_setBucket]
    simp
  · intro k hk
    rw [findBucket_setBucket]
    have : ¬ (v + 1 = k) := by omega
    simp only [this, if_false]
    exact hGood.2 k (by omega)

theorem driveLoop_good (ctx : Context) (t : Nat → Elem → Elem) (names : List String)
    (input : List Elem)
    (hrev : ∀ i, i < ctx.schemaVersion → ctx.revisions[i]? = some (.update (t i)))
    (Ht : ∀ i, i < ctx.schemaVersion → ∀ e, ∃ d, t i e = Elem.doc d ∧ d.v = i + 1) :
    ∀ (fuel v : Nat) (buckets : List (Nat × VersionBucket)),
    v + fuel = ctx.schemaVersion →
    GoodState ctx t names input v buckets →
    ∃ final, driveLoop ctx fuel v buckets = .ok final ∧
      GoodState ctx t names input ctx.schemaVersion final := by
  intro fuel
  induction fuel with
  | zero =>
    intro v buckets hfv hGood
    refine ⟨buckets, rfl, ?_⟩
    rw [show ctx.schemaVersion = v from by omega]
    exact hGood
  | succ fuel ih =>
    intro v buckets hfv hGood
    obtain ⟨hstep, hGood'⟩ := driveStep_good ctx t names input v hrev Ht (by omega) buckets hGood
    rw [driveLoop, hstep]
    exact ih (v + 1) _ (by omega) hGood'

theorem enumFrom_map_comp {α β : Type} (h : α → β) (i : Nat) (l : List α) :
    (enumFrom i l).map (fun x => h x.2) = l.map h := by
  induction l generalizing i with
  | nil => rfl
  | cons a rest ih => simp [enumFrom, ih]

theorem initial_good (ctx : Context) (t : Nat → Elem → Elem) (projection : Projection)
    (input : List Elem) (hne : input ≠ []) :
    GoodState ctx t (projectedEmbeddedDocumentNames ctx projection) input
      (minKeyOf ((transformInput ctx input projection).documentsByVersion.map Prod.fst))
      (transformInput ctx input projection).documentsByVersion := by
  set names := projectedEmbeddedDocumentNames ctx projection with hnames
  set keys := (transformInput ctx input projection).documentsByVersion.map Prod.fst with hkeys
  set minV := minKeyOf keys with hminV
  obtain ⟨e1, he1⟩ := List.exists_mem_of_ne_nil input hne
  have hkeysne : keys ≠ [] := by
    intro hk
    have : elemVersion ctx e1 ∈ keys :=
      (transformInput_keys_mem ctx input projection _).mpr ⟨e1, he1, rfl⟩
    rw [hk] at this
    simp at this
  have hminmem : minV ∈ keys := minKeyOf_mem keys hkeysne
  obtain ⟨e0, he0, he0v⟩ := (transformInput_keys_mem ctx input projection minV).mp hminmem
  have hminle : ∀ e ∈ input, minV ≤ elemVersion ctx e := by
    intro e he
    exact minKeyOf_le keys _ ((transformInput_keys_mem ctx input projection _).mpr ⟨e, he, rfl⟩)
  constructor
  · rw [transformInput_bucket]
    have hfc : (enumFrom 0 input).filter (fun x => elemVersion ctx x.2 == minV) =
        (enumFrom 0 input).filter (fun x => decide (elemVersion ctx x.2 ≤ minV)) := by
      refine List.filter_congr (fun x hx => ?_)
      have hxi : x.2 ∈ input := by
        rw [← enumFrom_map_snd 0 input]
        exact List.mem_map_of_mem Prod.snd hx
      have := hminle x.2 hxi
      by_cases h : elemVersion ctx x.2 = minV
      · simp [h]
      · have h2 : ¬ (elemVersion ctx x.2 ≤ minV) := by omega
        simp [h, h2]
    have hitems : bucketItems ctx names (enumFrom 0 input) minV =
        stageList ctx t names input minV := by
      rw [bucketItems, stageList, hfc]
      refine List.map_congr_left (fun x hx => ?_)
      have hxle : elemVersion ctx x.2 ≤ minV := by
        have := (List.mem_filter.mp hx).2
        simpa using this
      have hxi : x.2 ∈ input := by
        have hx' := (List.mem_filter.mp hx).1
        rw [← enumFrom_map_snd 0 input]
        exact List.mem_map_of_mem Prod.snd hx'
      have hge := hminle x.2 hxi
      rw [itemAt, migrateTo_of_ge ctx t minV x.2 (by omega)]
    rw [hitems]
    have hnonempty : stageList ctx t names input minV ≠ [] := by
      rw [← hitems]
      exact bucketItems_ne_nil.mpr ⟨e0, he0, he0v⟩
    rw [optBucket]
    cases hsl : stageList ctx t names input minV with
    | nil => exact absurd hsl hnonempty
    | cons a rest => simp
  · intro k hk
    rw [transformInput_bucket]

/-- Full characterization of a successful array-shaped engine call under
per-document, version-correct transforms, with every input element at a version
at most `schemaVersion`. -/
theorem updatedDocuments_batch_char (ctx : Context) (t : Nat → Elem → Elem)
    (input : List Elem) (hasCollection : Bool) (projection : Projection)
    (hproj : validateProjection projection = true)
    (hne : input ≠ [])
    (hrev : ∀ i, i < ctx.schemaVersion → ctx.revisions[i]? = some (.update (t i)))
    (Ht : ∀ i, i < ctx.schemaVersion → ∀ e, ∃ d, t i e = Elem.doc d ∧ d.v = i + 1)
    (hle : ∀ e ∈ input, elemVersion ctx e ≤ ctx.schemaVersion) :
    updatedDocuments ctx (.batch input) hasCollection projection =
      (let names := projectedEmbeddedDocumentNames ctx projection
      let ti := transformInput ctx input projection
      let updatedEmbeddedDocuments : List (String × List FieldVal) :=
        if !ctx.embedded then
          names.map (fun n =>
            (n, embeddedSchemaApply ctx n ((lookupAssoc ti.embeddedDocuments n).getD [])))
        else []
      let finalDocs := input.map (migrateTo ctx t ctx.schemaVersion)
      let finalMetas := (enumFrom 0 input).map (fun x => mkMeta ctx names x.1 x.2)
      let result :=
        if !ctx.embedded && !names.isEmpty then
          spliceEmbedded names updatedEmbeddedDocuments finalDocs
        else finalDocs
      .ok ⟨.batch result,
        if hasCollection && !ctx.embedded then
          persistChangedDocuments ctx result finalMetas
        else none⟩) := by
  set names := projectedEmbeddedDocumentNames ctx projection with hnames
  set ti := transformInput ctx input projection with hti
  set minV := minKeyOf (ti.documentsByVersion.map Prod.fst) with hminV
  have hGood0 := initial_good ctx t projection input hne
  have hminle : minV ≤ ctx.schemaVersion := by
    have hkeysne : ti.documentsByVersion.map Prod.fst ≠ [] := by
      obtain ⟨e1, he1⟩ := List.exists_mem_of_ne_nil input hne
      intro hk
      have : elemVersion ctx e1 ∈ ti.documentsByVersion.map Prod.fst :=
        (transformInput_keys_mem ctx input projection _).mpr ⟨e1, he1, rfl⟩
      rw [hk] at this
      simp at this
    have hminmem := minKeyOf_mem _ hkeysne
    obtain ⟨e0, he0, he0v⟩ := (transformInput_keys_mem ctx input projection minV).mp hminmem
    rw [← he0v]
    exact hle e0 he0
  obtain ⟨final, hdrive, hGoodF⟩ := driveLoop_good ctx t names input hrev Ht
    (ctx.schemaVersion - minV) minV ti.documentsByVersion (by omega) hGood0
  have hstage : stageList ctx t names input ctx.schemaVersion =
      (enumFrom 0 input).map (itemAt ctx t names ctx.schemaVersion) := by
    rw [stageList]
    have : (enumFrom 0 input).filter
        (fun x => decide (elemVersion ctx x.2 ≤ ctx.schemaVersion)) = enumFrom 0 input := by
      refine List.filter_eq_self.mpr (fun x hx => ?_)
      have hxi : x.2 ∈ input := by
        rw [← enumFrom_map_snd 0 input]
        exact List.mem_map_of_mem Prod.snd hx
      simpa using hle x.2 hxi
    rw [this]
  have hfb : findBucket final ctx.schemaVersion =
      some ⟨input.map (migrateTo ctx t ctx.schemaVersion),
        (enumFrom 0 input).map (fun x => mkMeta ctx names x.1 x.2)⟩ := by
    rw [hGoodF.1, hstage]
    refine congrArg some ?_
    rw [pairsBucket]
    refine congrArg₂ VersionBucket.mk ?_ ?_
    · rw [List.map_map]
      exact enumFrom_map_comp (migrateTo ctx t ctx.schemaVersion) 0 input
    · rw [List.map_map]
      rfl
  have hlen : (input.length == 0) = false := by
    cases input with
    | nil => exact absurd rfl hne
    | cons a rest => rfl
  rw [updatedDocuments]
  simp only [hproj, Bool.not_true, Bool.false_eq_true, if_false, hlen, ← hti, ← hnames, ← hminV,
    hdrive, hfb]

/-! ## Characterization of the embedded-field splice -/

theorem spliceName_getElem? (updatedList : List FieldVal) (name : String) :
    ∀ (res : List Elem) (i j : Nat),
    (spliceName updatedList name i res)[j]? =
      res[j]?.map (fun e =>
        match e with
        | Elem.doc d => Elem.doc (setField d name (updatedList.getD (i + j) .undefinedF))
        | other => other) := by
  intro res
  induction res with
  | nil => intro i j; simp [spliceName]
  | cons e rest ih =>
    intro i j
    cases j with
    | zero =>
      simp [spliceName]
    | succ j =>
      simp only [spliceName, List.getElem?_cons_succ, ih (i + 1) j]
      rw [show i + 1 + j = i + (j + 1) from by omega]

theorem spliceName_length (updatedList : List FieldVal) (name : String) :
    ∀ (res : List Elem) (i : Nat), (spliceName updatedList name i res).length = res.length := by
  intro res
  induction res with
  | nil => intro i; rfl
  | cons e rest ih => intro i; simp [spliceName, ih]

theorem spliceEmbedded_getElem? (names : List String) (upd : List (String × List FieldVal)) :
    ∀ (res : List Elem) (j : Nat),
    (spliceEmbedded names upd res)[j]? = res[j]?.map (spliceElem names upd j) := by
  induction names with
  | nil =>
    intro res j
    simp only [spliceEmbedded, List.foldl_nil, spliceElem]
    cases res[j]? <;> rfl
  | cons n ns ih =>
    intro res j
    rw [show spliceEmbedded (n :: ns) upd res =
      spliceEmbedded ns upd (spliceName ((lookupAssoc upd n).getD []) n 0 res) from rfl]
    rw [ih, spliceName_getElem?]
    simp only [Nat.zero_add]
    cases res[j]? with
    | none => rfl
    | some e => rfl

theorem spliceEmbedded_length (names : List String) (upd : List (String × List FieldVal))
    (res : List Elem) : (spliceEmbedded names upd res).length = res.length := by
  induction names generalizing res with
  | nil => rfl
  | cons n ns ih =>
    rw [show spliceEmbedded (n :: ns) upd res =
      spliceEmbedded ns upd (spliceName ((lookupAssoc upd n).getD []) n 0 res) from rfl]
    rw [ih, spliceName_length]

theorem lookupAssoc_setAssoc_self (fields : List (String × FieldVal)) (name : String)
    (v : FieldVal) : lookupAssoc (setAssoc fields name v) name = some v := by
  induction fields with
  | nil => simp [setAssoc, lookupAssoc_cons]
  | cons kv rest ih =>
    obtain ⟨k, w⟩ := kv
    by_cases h : k == name
    · simp [setAssoc, h, lookupAssoc_cons]
    · simp only [setAssoc, h, Bool.false_eq_true, if_false]
      rw [lookupAssoc_cons]
      simp [h, ih]

theorem lookupAssoc_setAssoc_ne (fields : List (String × FieldVal)) (name name' : String)
    (v : FieldVal) (h : name' ≠ name) :
    lookupAssoc (setAssoc fields name v) name' = lookupAssoc fields name' := by
  have hne : (name == name') = false := by
    simp only [beq_eq_false_iff_ne, ne_eq]
    exact fun hc => h hc.symm
  induction fields with
  | nil => simp [setAssoc, lookupAssoc_cons, lookupAssoc_nil, hne]
  | cons kv rest ih =>
    obtain ⟨k, w⟩ := kv
    by_cases hk : k == name
    · have hkeq : k = name := by simpa using hk
      subst hkeq
      simp [setAssoc, lookupAssoc_cons, hne]
    · simp only [setAssoc, hk, Bool.false_eq_true, if_false]
      rw [lookupAssoc_cons, lookupAssoc_cons, ih]

/-- Folding field assignments over a document: the element stays a document and a
name assigned once (with no later re-assignment of the same name) reads back as the
assigned value. -/
theorem spliceElem_doc (names : List String) (upd : List (String × List FieldVal)) (j : Nat)
    (d : Doc) : ∃ d', spliceElem names upd j (Elem.doc d) = Elem.doc d' ∧
      d'.id = d.id ∧ d'.v = d.v := by
  induction names generalizing d with
  | nil => exact ⟨d, rfl, rfl, rfl⟩
  | cons n ns ih =>
    rw [spliceElem, List.foldl_cons]
    obtain ⟨d', hd', hid, hv⟩ := ih (setField d n (((lookupAssoc upd n).getD []).getD j .undefinedF))
    exact ⟨d', hd', hid, hv⟩

theorem spliceElem_falsy (names : List String) (upd : List (String × List FieldVal)) (j : Nat)
    (e : Elem) (he : e.truthy = false) : spliceElem names upd j e = e := by
  induction names with
  | nil => rfl
  | cons n ns ih =>
    rw [spliceElem, List.foldl_cons]
    cases e with
    | doc d => simp [Elem.truthy] at he
    | jsUndefined => exact ih
    | jsNull => exact ih
    | jsFalse => exact ih

theorem spliceElem_keep (upd : List (String × List FieldVal)) (j : Nat) (name : String)
    (val : FieldVal) :
    ∀ (ms : List String) (d : Doc), name ∉ ms →
    lookupAssoc d.fields name = some val →
    ∃ d', spliceElem ms upd j (Elem.doc d) = Elem.doc d' ∧
      lookupAssoc d'.fields name = some val := by
  intro ms
  induction ms with
  | nil => intro d _ hl; exact ⟨d, rfl, hl⟩
  | cons m ms ih =>
    intro d hnm hl
    have hmne : m ≠ name := fun hc => hnm (hc ▸ List.mem_cons_self _ _)
    rw [show spliceElem (m :: ms) upd j (Elem.doc d) =
      spliceElem ms upd j
        (Elem.doc (setField d m (((lookupAssoc upd m).getD []).getD j .undefinedF))) from rfl]
    refine ih _ (fun hc => hnm (List.mem_cons_of_mem _ hc)) ?_
    rw [setField]
    rw [lookupAssoc_setAssoc_ne _ _ _ _ (fun hc => hmne hc.symm)]
    exact hl

theorem spliceElem_lookup : ∀ (names : List String), names.Nodup →
    ∀ (upd : List (String × List FieldVal)) (j : Nat) (d : Doc) (name : String),
    name ∈ names →
    ∃ d', spliceElem names upd j (Elem.doc d) = Elem.doc d' ∧
      lookupAssoc d'.fields name =
        some (((lookupAssoc upd name).getD []).getD j .undefinedF) := by
  intro names
  induction names with
  | nil => intro _ upd j d name hmem; simp at hmem
  | cons n ns ih =>
    intro hnd upd j d name hmem
    obtain ⟨hn, hns⟩ := List.nodup_cons.mp hnd
    rcases List.mem_cons.mp hmem with rfl | hmem'
    · rw [show spliceElem (name :: ns) upd j (Elem.doc d) =
        spliceElem ns upd j
          (Elem.doc (setField d name
            (((lookupAssoc upd name).getD []).getD j .undefinedF))) from rfl]
      refine spliceElem_keep upd j name _ ns _ hn ?_
      rw [setField]
      exact lookupAssoc_setAssoc_self _ _ _
    · rw [show spliceElem (n :: ns) upd j (Elem.doc d) =
        spliceElem ns upd j
          (Elem.doc (setField d n (((lookupAssoc upd n).getD []).getD j .undefinedF))) from rfl]
      exact ih hns upd j _ name hmem'

/-- Full characterization of a successful single-shaped engine call, mirroring
`updatedDocuments_batch_char` for the `singleDocument` wrapping. -/
theorem updatedDocuments_single_char (ctx : Context) (t : Nat → Elem → Elem)
    (e : Elem) (hasCollection : Bool) (projection : Projection)
    (hproj : validateProjection projection = true)
    (hrev : ∀ i, i < ctx.schemaVersion → ctx.revisions[i]? = some (.update (t i)))
    (Ht : ∀ i, i < ctx.schemaVersion → ∀ e, ∃ d, t i e = Elem.doc d ∧ d.v = i + 1)
    (hle : elemVersion ctx e ≤ ctx.schemaVersion) :
    updatedDocuments ctx (.single e) hasCollection projection =
      (let names := projectedEmbeddedDocumentNames ctx projection
      let ti := transformInput ctx [e] projection
      let updatedEmbeddedDocuments : List (String × List FieldVal) :=
        if !ctx.embedded then
          names.map (fun n =>
            (n, embeddedSchemaApply ctx n ((lookupAssoc ti.embeddedDocuments n).getD [])))
        else []
      let finalDocs := [migrateTo ctx t ctx.schemaVersion e]
      let finalMetas := [mkMeta ctx names 0 e]
      let result :=
        if !ctx.embedded && !names.isEmpty then
          spliceEmbedded names updatedEmbeddedDocuments finalDocs
        else finalDocs
      .ok ⟨.single (result.getD 0 .jsUndefined),
        if hasCollection && !ctx.embedded then
          persistChangedDocuments ctx result finalMetas
        else none⟩) := by
  set names := projectedEmbeddedDocumentNames ctx projection with hnames
  set ti := transformInput ctx [e] projection with hti
  set minV := minKeyOf (ti.documentsByVersion.map Prod.fst) with hminV
  have hne : ([e] : List Elem) ≠ [] := by simp
  have hle' : ∀ x ∈ ([e] : List Elem), elemVersion ctx x ≤ ctx.schemaVersion := by
    intro x hx
    rcases List.mem_singleton.mp hx with rfl
    exact hle
  have hGood0 := initial_good ctx t projection [e] hne
  have hminle : minV ≤ ctx.schemaVersion := by
    have hkeysne : ti.documentsByVersion.map Prod.fst ≠ [] := by
      intro hk
      have : elemVersion ctx e ∈ ti.documentsByVersion.map Prod.fst :=
        (transformInput_keys_mem ctx [e] projection _).mpr ⟨e, by simp, rfl⟩
      rw [hk] at this
      simp at this
    have hminmem := minKeyOf_mem _ hkeysne
    obtain ⟨e0, he0, he0v⟩ := (transformInput_keys_mem ctx [e] projection minV).mp hminmem
    rw [← he0v]
    exact hle' e0 he0
  obtain ⟨final, hdrive, hGoodF⟩ := driveLoop_good ctx t names [e] hrev Ht
    (ctx.schemaVersion - minV) minV ti.documentsByVersion (by omega) hGood0
  have hstage : stageList ctx t names [e] ctx.schemaVersion =
      (enumFrom 0 [e]).map (itemAt ctx t names ctx.schemaVersion) := by
    rw [stageList]
    have : (enumFrom 0 [e]).filter
        (fun x => decide (elemVersion ctx x.2 ≤ ctx.schemaVersion)) = enumFrom 0 [e] := by
      refine List.filter_eq_self.mpr (fun x hx => ?_)
      have hxi : x.2 ∈ ([e] : List Elem) := by
        rw [← enumFrom_map_snd 0 [e]]
        exact List.mem_map_of_mem Prod.snd hx
      simpa using hle' x.2 hxi
    rw [this]
  have hfb : findBucket final ctx.schemaVersion =
      some ⟨[migrateTo ctx t ctx.schemaVersion e], [mkMeta ctx names 0 e]⟩ := by
    rw [hGoodF.1, hstage]
    rfl
  rw [updatedDocuments]
  simp only [hproj, Bool.not_true, Bool.false_eq_true, if_false, ← hti, ← hnames, ← hminV,
    hdrive, hfb]
  simp

/-! ## Characterization of persistChangedDocuments -/

theorem persistOpsEmbedded_char (ctx : Context) (documents : List Elem) :
    ∀ (metas : List DocumentMetaData) (i : Nat),
    persistOpsEmbedded ctx documents i metas =
      ((enumFrom i metas).filter (fun x => x.2.willBeUpdated)).map
        (fun x => fieldModeOp ctx (elemDoc (documents.getD x.1 .jsUndefined))
          (x.2.initialFields.getD [])) := by
  intro metas
  induction metas with
  | nil => intro i; rfl
  | cons m rest ih =>
    intro i
    by_cases h : m.willBeUpdated
    · simp [persistOpsEmbedded, h, enumFrom, List.filter_cons, ih (i + 1)]
    · have h' : m.willBeUpdated = false := by simpa using h
      simp [persistOpsEmbedded, h', enumFrom, List.filter_cons, ih (i + 1)]

theorem persistOpsReplace_char (documents : List Elem) :
    ∀ (metas : List DocumentMetaData) (i : Nat),
    persistOpsReplace documents i metas =
      ((enumFrom i metas).filter (fun x => x.2.willBeUpdated)).map
        (fun x => WriteOp.replaceOne (elemDoc (documents.getD x.1 .jsUndefined)).id
          (elemDoc (documents.getD x.1 .jsUndefined))) := by
  intro metas
  induction metas with
  | nil => intro i; rfl
  | cons m rest ih =>
    intro i
    by_cases h : m.willBeUpdated
    · simp [persistOpsReplace, h, enumFrom, List.filter_cons, ih (i + 1)]
    · have h' : m.willBeUpdated = false := by simpa using h
      simp [persistOpsReplace, h', enumFrom, List.filter_cons, ih (i + 1)]

/-- Characterization of a successful array-shaped call without assuming that
every document's version is bounded by `schemaVersion`: the final bucket holds
exactly the input elements whose version is at most `schemaVersion`, so any
other document is omitted from the result. -/
theorem updatedDocuments_batch_raw (ctx : Context) (t : Nat → Elem → Elem)
    (input : List Elem) (hasCollection : Bool) (projection : Projection)
    (hproj : validateProjection projection = true)
    (hrev : ∀ i, i < ctx.schemaVersion → ctx.revisions[i]? = some (.update (t i)))
    (Ht : ∀ i, i < ctx.schemaVersion → ∀ e, ∃ d, t i e = Elem.doc d ∧ d.v = i + 1)
    (hsome : ∃ e ∈ input, elemVersion ctx e ≤ ctx.schemaVersion) :
    updatedDocuments ctx (.batch input) hasCollection projection =
      (let names := projectedEmbeddedDocumentNames ctx projection
      let ti := transformInput ctx input projection
      let updatedEmbeddedDocuments : List (String × List FieldVal) :=
        if !ctx.embedded then
          names.map (fun n =>
            (n, embeddedSchemaApply ctx n ((lookupAssoc ti.embeddedDocuments n).getD [])))
        else []
      let finalDocs := (input.filter
          (fun e => decide (elemVersion ctx e ≤ ctx.schemaVersion))).map
        (migrateTo ctx t ctx.schemaVersion)
      let finalMetas := ((enumFrom 0 input).filter
          (fun x => decide (elemVersion ctx x.2 ≤ ctx.schemaVersion))).map
        (fun x => mkMeta ctx names x.1 x.2)
      let result :=
        if !ctx.embedded && !names.isEmpty then
          spliceEmbedded names updatedEmbeddedDocuments finalDocs
        else finalDocs
      .ok ⟨.batch result,
        if hasCollection && !ctx.embedded then
          persistChangedDocuments ctx result finalMetas
        else none⟩) := by
  set names := projectedEmbeddedDocumentNames ctx projection with hnames
  set ti := transformInput ctx input projection with hti
  set minV := minKeyOf (ti.documentsByVersion.map Prod.fst) with hminV
  have hne : input ≠ [] := by
    obtain ⟨e1, he1, _⟩ := hsome
    exact List.ne_nil_of_mem he1
  have hGood0 := initial_good ctx t projection input hne
  have hminle : minV ≤ ctx.schemaVersion := by
    obtain ⟨e1, he1, hle1⟩ := hsome
    have : elemVersion ctx e1 ∈ ti.documentsByVersion.map Prod.fst :=
      (transformInput_keys_mem ctx input projection _).mpr ⟨e1, he1, rfl⟩
    have := minKeyOf_le _ _ this
    omega
  obtain ⟨final, hdrive, hGoodF⟩ := driveLoop_good ctx t names input hrev Ht
    (ctx.schemaVersion - minV) minV ti.documentsByVersion (by omega) hGood0
  have hfb : findBucket final ctx.schemaVersion =
      some ⟨(input.filter (fun e => decide (elemVersion ctx e ≤ ctx.schemaVersion))).map
          (migrateTo ctx t ctx.schemaVersion),
        ((enumFrom 0 input).filter
          (fun x => decide (elemVersion ctx x.2 ≤ ctx.schemaVersion))).map
          (fun x => mkMeta ctx names x.1 x.2)⟩ := by
    rw [hGoodF.1]
    refine congrArg some ?_
    rw [pairsBucket, stageList]
    refine congrArg₂ VersionBucket.mk ?_ ?_
    · rw [List.map_map]
      rw [show (Prod.fst ∘ itemAt ctx t names ctx.schemaVersion) =
        (fun x : Nat × Elem => migrateTo ctx t ctx.schemaVersion x.2) from rfl]
      exact enumFrom_filter_map (fun e => decide (elemVersion ctx e ≤ ctx.schemaVersion))
        (migrateTo ctx t ctx.schemaVersion) 0 input
    · rw [List.map_map]
      rfl
  have hlen : (input.length == 0) = false := by
    cases input with
    | nil => exact absurd rfl hne
    | cons a rest => rfl
  rw [updatedDocuments]
  simp only [hproj, Bool.not_true, Bool.false_eq_true, if_false, hlen, ← hti, ← hnames, ← hminV,
    hdrive, hfb]

/-! ## Concrete fixtures used by the witnesses and counterexamples -/

theorem bumpT_spec : ∀ i, ∀ e, ∃ d, bumpT i e = Elem.doc d ∧ d.v = i + 1 := by
  intro i e
  cases e with
  | doc d => exact ⟨⟨d.id, i + 1, d.fields⟩, rfl, rfl⟩
  | jsUndefined => exact ⟨⟨0, i + 1, []⟩, rfl, rfl⟩
  | jsNull => exact ⟨⟨0, i + 1, []⟩, rfl, rfl⟩
  | jsFalse => exact ⟨⟨0, i + 1, []⟩, rfl, rfl⟩

theorem ctxOne_rev : ∀ i, i < ctxOne.schemaVersion →
    ctxOne.revisions[i]? = some (.update (bumpT i)) := by
  intro i hi
  match i, hi with
  | 0, _ => rfl

theorem ctxTwo_rev : ∀ i, i < ctxTwo.schemaVersion →
    ctxTwo.revisions[i]? = some (.update (bumpT i)) := by
  intro i hi
  match i, hi with
  | 0, _ => rfl
  | 1, _ => rfl

/-! ## Inversion helpers -/

theorem optBucket_eq_some {l : List (Elem × DocumentMetaData)} {b : VersionBucket}
    (h : optBucket l = some b) : b = pairsBucket l := by
  cases l with
  | nil => simp [optBucket] at h
  | cons a t =>
    simp only [optBucket, List.isEmpty_cons, Bool.false_eq_true, if_false,
      Option.some_inj] at h
    exact h.symm

/-! ## Claims -/

/-- C8: for every call whose projection contains an entry whose value is not the
exclusion marker, the call fails with the invalid-projection error before any
transform, nested engine call or store write — independently of the input
(including empty input).  The statement quantifies over every context (hence
every set of transforms and nested engines) and every input shape, and the
`.error` result implies no write was issued since `persistChangedDocuments` runs
last in `updatedDocuments`. -/
theorem C8_invalid_projection_fails (ctx : Context) (input : Input) (hasCollection : Bool)
    (projection : Projection)
    (hbad : ∃ kv ∈ projection, kv.2 ≠ ProjectionValue.exclude) :
    updatedDocuments ctx input hasCollection projection = .error .invalidProjection := by
  have hval : validateProjection projection = false := by
    obtain ⟨kv, hkv, hne⟩ := hbad
    rw [validateProjection]
    rw [show (projection.all fun kv => kv.2 == ProjectionValue.exclude) = false ↔
      ∃ x ∈ projection, ¬ (x.2 == ProjectionValue.exclude) = true from by
        rw [← Bool.not_eq_true, List.all_eq_true]; push_neg; tauto]
    exact ⟨kv, hkv, by simpa using hne⟩
  cases input with
  | single e => rw [updatedDocuments]; simp [hval]
  | batch l => rw [updatedDocuments]; simp [hval]

/-- C3: whenever the driver processes a version `v` and the transform's output
contains any element whose `_v` differs from `v + 1`, the whole call fails with
the version-mismatch error.  The context's revisions at indices other than `v`
and the store flag are universally quantified, so the failure is independent of
any later-version transform; the `.error` result is produced inside the driver
loop, before the merged bucket at `v + 1` is stored and before
`persistChangedDocuments` could run. -/
theorem C3_version_mismatch_fails (ctx : Context) (v : Nat) (input : List Elem)
    (hasCollection : Bool) (projection : Projection)
    (hproj : validateProjection projection = true)
    (hne : input ≠ [])
    (hver : ∀ e ∈ input, elemVersion ctx e = v)
    (hv : v < ctx.schemaVersion)
    (hbad : ∃ e ∈ applyRevision (revisionAt ctx v) input,
      checkVersionTag e (v + 1) = false) :
    updatedDocuments ctx (.batch input) hasCollection projection =
      .error (.versionMismatch v) := by
  set names := projectedEmbeddedDocumentNames ctx projection with hnames
  set ti := transformInput ctx input projection with hti
  have hfilt : (enumFrom 0 input).filter (fun x => elemVersion ctx x.2 == v) =
      enumFrom 0 input := by
    refine List.filter_eq_self.mpr (fun x hx => ?_)
    have hxi : x.2 ∈ input := by
      rw [← enumFrom_map_snd 0 input]
      exact List.mem_map_of_mem Prod.snd hx
    simp [hver x.2 hxi]
  have hbv : findBucket ti.documentsByVersion v =
      some (pairsBucket ((enumFrom 0 input).map
        (fun x => (x.2, mkMeta ctx names x.1 x.2)))) := by
    rw [hti, transformInput_bucket, bucketItems, hfilt, ← hnames, optBucket]
    cases input with
    | nil => exact absurd rfl hne
    | cons e rest => simp [enumFrom]
  have hdocs : (pairsBucket ((enumFrom 0 input).map
      (fun x => (x.2, mkMeta ctx names x.1 x.2)))).documents = input := by
    rw [pairsBucket, List.map_map]
    have := enumFrom_map_comp (fun e : Elem => e) 0 input
    simpa using this
  have hkeysne : ti.documentsByVersion.map Prod.fst ≠ [] := by
    obtain ⟨e1, he1⟩ := List.exists_mem_of_ne_nil input hne
    intro hk
    have : elemVersion ctx e1 ∈ ti.documentsByVersion.map Prod.fst :=
      (transformInput_keys_mem ctx input projection _).mpr ⟨e1, he1, rfl⟩
    rw [hk] at this
    simp at this
  have hminv : minKeyOf (ti.documentsByVersion.map Prod.fst) = v := by
    have hmem := minKeyOf_mem _ hkeysne
    obtain ⟨e0, he0, hv0⟩ := (transformInput_keys_mem ctx input projection _).mp hmem
    rw [← hv0, hver e0 he0]
  have hstep : driveStep ctx ti.documentsByVersion v = .error (.versionMismatch v) := by
    rw [driveStep, hbv]
    simp only [Option.getD_some]
    rw [hdocs]
    have hallfalse : ((applyRevision (revisionAt ctx v) input).all
        (fun d => checkVersionTag d (v + 1))) = false := by
      obtain ⟨e, he, hf⟩ := hbad
      rw [← Bool.not_eq_true, List.all_eq_true]
      push_neg
      exact ⟨e, he, by simp [hf]⟩
    simp [hallfalse]
  obtain ⟨fuel', hfuel⟩ : ∃ f, ctx.schemaVersion - v = f + 1 :=
    ⟨ctx.schemaVersion - v - 1, by omega⟩
  have hlen : (input.length == 0) = false := by
    cases input with
    | nil => exact absurd rfl hne
    | cons a rest => rfl
  rw [updatedDocuments]
  simp only [hproj, Bool.not_true, Bool.false_eq_true, if_false, hlen, ← hti, ← hnames,
    hminv, hfuel]
  rw [show driveLoop ctx (fuel' + 1) v ti.documentsByVersion =
    (match driveStep ctx ti.documentsByVersion v with
      | .ok next => driveLoop ctx fuel' (v + 1) next
      | .error e => .error e) from rfl]
  rw [hstep]

/-- C5: for every bucket entry built by `transformInput`, a truthy document's
`willBeUpdated` flag is set iff its own `_v` is below the schema version or some
non-excluded embedded field carries a `_v` below that field's declared version,
while a falsy input element lands in the bucket at the schema version with the
flag never set. -/
theorem C5_staleness_flag (ctx : Context) (input : List Elem) (projection : Projection)
    (k : Nat) (b : VersionBucket)
    (hb : findBucket (transformInput ctx input projection).documentsByVersion k = some b)
    (j : Nat) (e : Elem) (m : DocumentMetaData)
    (hdoc : b.documents[j]? = some e) (hmeta : b.metaData[j]? = some m) :
    (e.truthy = true →
      (m.willBeUpdated = true ↔
        (elemVersion ctx e < ctx.schemaVersion ∨
          ∃ name ∈ projectedEmbeddedDocumentNames ctx projection,
            fieldVersionLt (e.andField name)
              (lookupAssoc ctx.embeddedSchemaVersions name) = true))) ∧
    (e.truthy = false → (k = ctx.schemaVersion ∧ m.willBeUpdated = false)) := by
  rw [transformInput_bucket] at hb
  have hbp := optBucket_eq_some hb
  subst hbp
  set names := projectedEmbeddedDocumentNames ctx projection with hnames
  set items := bucketItems ctx names (enumFrom 0 input) k with hitems
  rw [pairsBucket] at hdoc hmeta
  simp only [List.getElem?_map] at hdoc hmeta
  cases hx : items[j]? with
  | none => rw [hx] at hdoc; simp at hdoc
  | some x =>
    rw [hx] at hdoc hmeta
    simp only [Option.map_some', Option.some_inj] at hdoc hmeta
    have hxmem : x ∈ items := List.getElem?_mem hx
    rw [hitems, bucketItems] at hxmem
    obtain ⟨y, hy, hyx⟩ := List.mem_map.mp hxmem
    have hyk : elemVersion ctx y.2 = k := by
      have := (List.mem_filter.mp hy).2
      simpa using this
    have he : e = y.2 := by rw [← hdoc, ← hyx]
    have hm : m = mkMeta ctx names y.1 y.2 := by rw [← hmeta, ← hyx]
    subst he
    subst hm
    have hwbu : (mkMeta ctx names y.1 y.2).willBeUpdated =
        (decide (elemVersion ctx y.2 < ctx.schemaVersion) || wbuEmbedded ctx names y.2) := rfl
    constructor
    · intro _
      rw [hwbu, Bool.or_eq_true, decide_eq_true_eq, wbuEmbedded, List.any_eq_true]
    · intro hfalsy
      have hever : elemVersion ctx y.2 = ctx.schemaVersion := by
        cases hye : y.2 with
        | doc d => rw [hye] at hfalsy; simp [Elem.truthy] at hfalsy
        | jsUndefined => rfl
        | jsNull => rfl
        | jsFalse => rfl
      refine ⟨by rw [← hyk, hever], ?_⟩
      rw [hwbu]
      have h1 : decide (elemVersion ctx y.2 < ctx.schemaVersion) = false := by
        simp [hever]
      have h2 : wbuEmbedded ctx names y.2 = false := by
        rw [wbuEmbedded]
        rw [← Bool.not_eq_true, List.any_eq_true]
        push_neg
        intro name _
        cases hye : y.2 with
        | doc d => rw [hye] at hfalsy; simp [Elem.truthy] at hfalsy
        | jsUndefined => simp [Elem.andField, fieldVersionLt]
        | jsNull => simp [Elem.andField, fieldVersionLt]
        | jsFalse => simp [Elem.andField, fieldVersionLt]
      rw [h1, h2]
      rfl

/-- C6: the Change Writer issues no `bulkWrite` call at all (`none`) when no
document's metadata flags it stale, and otherwise issues exactly one batched call
(`some ops`) whose operations target, in order, exactly the stale-flagged
positions' documents; non-stale documents never appear as a write target.
`updatedDocuments` invokes this function precisely when a store handle is present
and the schema is not embedded (part_005 lines 120-122). -/
theorem C6_change_writer (ctx : Context) (documents : List Elem)
    (metaData : List DocumentMetaData) :
    ((∀ m ∈ metaData, m.willBeUpdated = false) →
      persistChangedDocuments ctx documents metaData = none) ∧
    ((∃ m ∈ metaData, m.willBeUpdated = true) →
      ∃ ops, persistChangedDocuments ctx documents metaData = some ops ∧ ops ≠ [] ∧
        ops.map writeTarget =
          ((enumFrom 0 metaData).filter (fun x => x.2.willBeUpdated)).map
            (fun x => (elemDoc (documents.getD x.1 .jsUndefined)).id)) := by
  have hfilter_nil : (∀ m ∈ metaData, m.willBeUpdated = false) →
      (enumFrom 0 metaData).filter (fun x => x.2.willBeUpdated) = [] := by
    intro hall
    rw [List.filter_eq_nil_iff]
    intro x hx
    have : x.2 ∈ metaData := by
      rw [← enumFrom_map_snd 0 metaData]
      exact List.mem_map_of_mem Prod.snd hx
    simp [hall x.2 this]
  have hfilter_ne : (∃ m ∈ metaData, m.willBeUpdated = true) →
      (enumFrom 0 metaData).filter (fun x => x.2.willBeUpdated) ≠ [] := by
    rintro ⟨m, hm, hup⟩ hnil
    obtain ⟨j, hjlt, hjm⟩ := List.mem_iff_getElem.mp hm
    have hmem : ((0 + j, m) : Nat × DocumentMetaData) ∈ enumFrom 0 metaData :=
      mem_enumFrom.mpr ⟨j, rfl, by rw [List.getElem?_eq_getElem hjlt, hjm]⟩
    have hmf : ((0 + j, m) : Nat × DocumentMetaData) ∈
        (enumFrom 0 metaData).filter (fun x => x.2.willBeUpdated) :=
      List.mem_filter.mpr ⟨hmem, by simpa using hup⟩
    rw [hnil] at hmf
    simp at hmf
  constructor
  · intro hall
    rw [persistChangedDocuments]
    have hops : (if ctx.hasEmbeddedDocuments then persistOpsEmbedded ctx documents 0 metaData
        else persistOpsReplace documents 0 metaData) = [] := by
      by_cases h : ctx.hasEmbeddedDocuments
      · simp [h, persistOpsEmbedded_char, hfilter_nil hall]
      · simp [h, persistOpsReplace_char, hfilter_nil hall]
    rw [hops]
    rfl
  · intro hsome
    rw [persistChangedDocuments]
    by_cases h : ctx.hasEmbeddedDocuments
    · refine ⟨persistOpsEmbedded ctx documents 0 metaData, ?_, ?_, ?_⟩
      · have hne : persistOpsEmbedded ctx documents 0 metaData ≠ [] := by
          rw [persistOpsEmbedded_char]
          simp only [ne_eq, List.map_eq_nil_iff]
          exact hfilter_ne hsome
        simp only [h, if_true]
        rw [if_neg (by simpa [List.isEmpty_iff] using hne)]
      · rw [persistOpsEmbedded_char]
        simp only [ne_eq, List.map_eq_nil_iff]
        exact hfilter_ne hsome
      · rw [persistOpsEmbedded_char, List.map_map]
        refine List.map_congr_left (fun x _ => ?_)
        simp [Function.comp, fieldModeOp, writeTarget]
    · refine ⟨persistOpsReplace documents 0 metaData, ?_, ?_, ?_⟩
      · have hne : persistOpsReplace documents 0 metaData ≠ [] := by
          rw [persistOpsReplace_char]
          simp only [ne_eq, List.map_eq_nil_iff]
          exact hfilter_ne hsome
        have hB : ctx.hasEmbeddedDocuments = false := by simpa using h
        rw [hB]
        simp only [Bool.false_eq_true, if_false]
        rw [if_neg (by simpa [List.isEmpty_iff] using hne)]
      · rw [persistOpsReplace_char]
        simp only [ne_eq, List.map_eq_nil_iff]
        exact hfilter_ne hsome
      · rw [persistOpsReplace_char, List.map_map]
        refine List.map_congr_left (fun x _ => ?_)
        simp [Function.comp, writeTarget]

/-- C7: in field-level persistence mode, every operation issued is an `updateOne`
whose `$set` is the whole final document of some stale position and whose
`$unset` list contains exactly the field names that appear in that position's
initial-fields snapshot, are undefined on the final document, and are not
declared embedded-schema names; every stale position yields such an operation;
a declared embedded-field name is never unset. -/
theorem C7_field_mode_unset (ctx : Context) (documents : List Elem)
    (metaData : List DocumentMetaData) (hEmb : ctx.hasEmbeddedDocuments = true)
    (ops : List WriteOp)
    (hops : persistChangedDocuments ctx documents metaData = some ops) :
    (∀ op ∈ ops, ∃ j m, metaData[j]? = some m ∧ m.willBeUpdated = true ∧
      op = .updateOne (elemDoc (documents.getD j .jsUndefined)).id
        (elemDoc (documents.getD j .jsUndefined))
        (let d := elemDoc (documents.getD j .jsUndefined)
        let unsetList := (m.initialFields.getD []).filter
          (fun f => jsFieldUndefined d f && !isEmbeddedSchemaName ctx f)
        if unsetList.isEmpty then none else some unsetList) ∧
      (∀ f, f ∈ unsetFields op ↔
        (f ∈ m.initialFields.getD [] ∧
          jsFieldUndefined (elemDoc (documents.getD j .jsUndefined)) f = true ∧
          isEmbeddedSchemaName ctx f = false))) ∧
    (∀ j m, metaData[j]? = some m → m.willBeUpdated = true →
      ∃ op ∈ ops, op = fieldModeOp ctx (elemDoc (documents.getD j .jsUndefined))
        (m.initialFields.getD [])) ∧
    (∀ op ∈ ops, ∀ f, isEmbeddedSchemaName ctx f = true → f ∉ unsetFields op) := by
  have hopseq : ops = persistOpsEmbedded ctx documents 0 metaData := by
    rw [persistChangedDocuments, hEmb] at hops
    simp only [if_true] at hops
    by_cases hemp : (persistOpsEmbedded ctx documents 0 metaData).isEmpty
    · rw [if_pos hemp] at hops; exact absurd hops (by simp)
    · rw [if_neg hemp] at hops
      exact (Option.some_inj.mp hops).symm
  have hunset_iff : ∀ (d : Doc) (initF : List String) (f : String),
      f ∈ unsetFields (fieldModeOp ctx d initF) ↔
        (f ∈ initF ∧ jsFieldUndefined d f = true ∧ isEmbeddedSchemaName ctx f = false) := by
    intro d initF f
    rw [fieldModeOp]
    by_cases hemp : (initF.filter
        (fun fn => jsFieldUndefined d fn && !isEmbeddedSchemaName ctx fn)).isEmpty
    · rw [if_pos hemp]
      rw [List.isEmpty_iff] at hemp
      simp only [unsetFields, Option.getD_none]
      constructor
      · intro hf; simp at hf
      · rintro ⟨hf1, hf2, hf3⟩
        have hmem : f ∈ initF.filter
            (fun fn => jsFieldUndefined d fn && !isEmbeddedSchemaName ctx fn) :=
          List.mem_filter.mpr ⟨hf1, by simp [hf2, hf3]⟩
        rw [hemp] at hmem
        simp at hmem
    · rw [if_neg hemp]
      simp only [unsetFields, Option.getD_some]
      rw [List.mem_filter]
      constructor
      · rintro ⟨hf1, hf2⟩
        simp only [Bool.and_eq_true, Bool.not_eq_true'] at hf2
        exact ⟨hf1, hf2.1, hf2.2⟩
      · rintro ⟨hf1, hf2, hf3⟩
        exact ⟨hf1, by simp [hf2, hf3]⟩
  refine ⟨?_, ?_, ?_⟩
  · intro op hop
    rw [hopseq, persistOpsEmbedded_char] at hop
    obtain ⟨x, hx, hxop⟩ := List.mem_map.mp hop
    obtain ⟨hxe, hxup⟩ := List.mem_filter.mp hx
    obtain ⟨j, hj1, hj2⟩ := mem_enumFrom.mp hxe
    refine ⟨j, x.2, by simpa using hj2, by simpa using hxup, ?_, ?_⟩
    · rw [← hxop, fieldModeOp]
      rw [show x.1 = j from by omega]
    · intro f
      rw [← hxop, show x.1 = j from by omega]
      exact hunset_iff _ _ f
  · intro j m hj hup
    have hmem : ((0 + j, m) : Nat × DocumentMetaData) ∈ enumFrom 0 metaData :=
      mem_enumFrom.mpr ⟨j, rfl, hj⟩
    have hmemf : ((0 + j, m) : Nat × DocumentMetaData) ∈
        (enumFrom 0 metaData).filter (fun x => x.2.willBeUpdated) :=
      List.mem_filter.mpr ⟨hmem, by simpa using hup⟩
    refine ⟨fieldModeOp ctx (elemDoc (documents.getD j .jsUndefined)) (m.initialFields.getD []),
      ?_, rfl⟩
    rw [hopseq, persistOpsEmbedded_char]
    have := List.mem_map_of_mem (fun x : Nat × DocumentMetaData =>
      fieldModeOp ctx (elemDoc (documents.getD x.1 .jsUndefined))
        (x.2.initialFields.getD [])) hmemf
    simpa using this
  · intro op hop f hf
    rw [hopseq, persistOpsEmbedded_char] at hop
    obtain ⟨x, hx, hxop⟩ := List.mem_map.mp hop
    rw [← hxop]
    intro hmem
    have := (hunset_iff _ _ f).mp hmem
    rw [hf] at this
    exact absurd this.2.2 (by simp)

/-- C4 counterexample: the claim says a document whose `_v` exceeds
`schemaVersion` is "returned unchanged at its original position in the output
... and no failure is raised".  On `ctxOne` (`schemaVersion = 1`) and the single
input document with `_v = 2`, the engine instead rejects with the TypeError
modelled as `missingSchemaVersionBucket` — the bucket at `schemaVersion` is
never created, so `documentsByVersion[this.schemaVersion].documents` faults. -/
theorem C4_counterexample :
    updatedDocuments ctxOne (.single (Elem.doc ⟨9, 2, []⟩)) false [] =
      .error .missingSchemaVersionBucket := by
  rfl

/-- C4 (amended): a document whose `_v` exceeds `schemaVersion` is never
transformed, but it is not passed through: its bucket is never merged, so (a)
when every input element is above `schemaVersion` the whole call fails with the
TypeError on the missing `schemaVersion` bucket, and (b) when some element is at
or below `schemaVersion` the call succeeds with the over-versioned documents
omitted from the output (the output is exactly the migration of the elements at
versions `≤ schemaVersion`, in their original relative order). -/
theorem C4_over_versioned_dropped (ctx : Context) (t : Nat → Elem → Elem)
    (hrev : ∀ i, i < ctx.schemaVersion → ctx.revisions[i]? = some (.update (t i)))
    (Ht : ∀ i, i < ctx.schemaVersion → ∀ e, ∃ d, t i e = Elem.doc d ∧ d.v = i + 1)
    (hembNone : ctx.embeddedDocumentSchemas = []) :
    (∀ (input : List Elem) (hasCollection : Bool) (projection : Projection),
      validateProjection projection = true → input ≠ [] →
      (∀ e ∈ input, ctx.schemaVersion < elemVersion ctx e) →
      updatedDocuments ctx (.batch input) hasCollection projection =
        .error .missingSchemaVersionBucket) ∧
    (∀ (input : List Elem) (projection : Projection),
      validateProjection projection = true →
      (∃ e ∈ input, elemVersion ctx e ≤ ctx.schemaVersion) →
      ∃ r, updatedDocuments ctx (.batch input) false projection = .ok r ∧
        r.output = .batch ((input.filter
          (fun e => decide (elemVersion ctx e ≤ ctx.schemaVersion))).map
          (migrateTo ctx t ctx.schemaVersion))) := by
  constructor
  · intro input hasCollection projection hproj hne hover
    set ti := transformInput ctx input projection with hti
    have hkeysne : ti.documentsByVersion.map Prod.fst ≠ [] := by
      obtain ⟨e1, he1⟩ := List.exists_mem_of_ne_nil input hne
      intro hk
      have : elemVersion ctx e1 ∈ ti.documentsByVersion.map Prod.fst :=
        (transformInput_keys_mem ctx input projection _).mpr ⟨e1, he1, rfl⟩
      rw [hk] at this
      simp at this
    have hminV_gt : ctx.schemaVersion < minKeyOf (ti.documentsByVersion.map Prod.fst) := by
      have hmem := minKeyOf_mem _ hkeysne
      obtain ⟨e0, he0, hv0⟩ := (transformInput_keys_mem ctx input projection _).mp hmem
      rw [← hv0]
      exact hover e0 he0
    have hsub : ctx.schemaVersion - minKeyOf (ti.documentsByVersion.map Prod.fst) = 0 := by
      omega
    have hfbnone : findBucket ti.documentsByVersion ctx.schemaVersion = none := by
      rw [hti, transformInput_bucket]
      have hitems : bucketItems ctx (projectedEmbeddedDocumentNames ctx projection)
          (enumFrom 0 input) ctx.schemaVersion = [] := by
        rw [bucketItems]
        rw [List.filter_eq_nil_iff.mpr ?_]
        · rfl
        · intro x hx
          have hxi : x.2 ∈ input := by
            rw [← enumFrom_map_snd 0 input]
            exact List.mem_map_of_mem Prod.snd hx
          have := hover x.2 hxi
          simp only [beq_iff_eq]
          omega
      rw [hitems]
      rfl
    have hlen : (input.length == 0) = false := by
      cases input with
      | nil => exact absurd rfl hne
      | cons a rest => rfl
    rw [updatedDocuments]
    simp only [hproj, Bool.not_true, Bool.false_eq_true, if_false, hlen, ← hti, hsub,
      driveLoop, hfbnone]
  · intro input projection hproj hsome
    have hnames : projectedEmbeddedDocumentNames ctx projection = [] := by
      simp [projectedEmbeddedDocumentNames, hembNone]
    have hraw := updatedDocuments_batch_raw ctx t input false projection hproj hrev Ht hsome
    simp only [hnames, List.isEmpty_nil, Bool.not_true, Bool.and_false, Bool.false_eq_true,
      if_false, Bool.false_and] at hraw
    exact ⟨_, hraw, rfl⟩

/-- C4 witness: the amended claim checked at concrete inputs on `ctxOne`: a lone
over-versioned document makes the call fail, and in a mixed batch the
over-versioned document disappears from the output. -/
theorem C4_over_versioned_dropped_witness :
    updatedDocuments ctxOne (.batch [Elem.doc ⟨9, 2, []⟩]) false [] =
      .error .missingSchemaVersionBucket ∧
    (∃ r, updatedDocuments ctxOne
        (.batch [Elem.doc ⟨1, 0, []⟩, Elem.doc ⟨9, 2, []⟩]) false [] = .ok r ∧
      r.output = .batch [Elem.doc ⟨1, 1, []⟩]) := by
  have h := C4_over_versioned_dropped ctxOne bumpT ctxOne_rev
    (fun i _ => bumpT_spec i) rfl
  constructor
  · exact h.1 [Elem.doc ⟨9, 2, []⟩] false [] rfl (by simp)
      (by intro e he; simp only [List.mem_singleton] at he; subst he; decide)
  · obtain ⟨r, hr, hout⟩ := h.2 [Elem.doc ⟨1, 0, []⟩, Elem.doc ⟨9, 2, []⟩] [] rfl
      ⟨Elem.doc ⟨1, 0, []⟩, by simp, by decide⟩
    refine ⟨r, hr, ?_⟩
    rw [hout]
    rfl

/-- C1 counterexample: the claim quantifies over every input containing a
document below `schemaVersion` and promises the composed transform chain "at
that input position".  With `ctxOne` (`schemaVersion = 1`) and the input
`[{_v: 5}, {_v: 0}]`, the document at position 1 is migrated correctly but comes
back at position 0 — the over-versioned sibling is dropped, so position 1 of the
output is empty even though the chain value exists. -/
theorem C1_counterexample :
    updatedDocuments ctxOne (.batch [Elem.doc ⟨5, 5, []⟩, Elem.doc ⟨7, 0, []⟩]) false [] =
      .ok ⟨.batch [Elem.doc ⟨7, 1, []⟩], none⟩ ∧
    ([Elem.doc ⟨7, 1, []⟩] : List Elem)[1]? = none ∧
    applyChain bumpT 0 1 (Elem.doc ⟨7, 0, []⟩) = Elem.doc ⟨7, 1, []⟩ := by
  refine ⟨rfl, rfl, rfl⟩

/-- C1 (amended): for every input whose present documents all carry
`_v ≤ schemaVersion` (the amendment forced by the counterexample), on a schema
without embedded fields, assuming each revision transform `i` upgrades its input
to version `i + 1`, the output element at the position of a document with
`_v = v < schemaVersion` is exactly the composition of transforms
`v, ..., schemaVersion - 1` applied in order, and carries `_v = schemaVersion`. -/
theorem C1_chain_composition (ctx : Context) (t : Nat → Elem → Elem)
    (input : List Elem) (hasCollection : Bool) (projection : Projection)
    (hproj : validateProjection projection = true)
    (hrev : ∀ i, i < ctx.schemaVersion → ctx.revisions[i]? = some (.update (t i)))
    (Ht : ∀ i, i < ctx.schemaVersion → ∀ e, ∃ d, t i e = Elem.doc d ∧ d.v = i + 1)
    (hle : ∀ e ∈ input, elemVersion ctx e ≤ ctx.schemaVersion)
    (hembNone : ctx.embeddedDocumentSchemas = [])
    (p : Nat) (d : Doc) (hp : input[p]? = some (Elem.doc d))
    (hdv : d.v < ctx.schemaVersion) :
    ∃ r l', updatedDocuments ctx (.batch input) hasCollection projection = .ok r ∧
      r.output = .batch l' ∧
      l'[p]? = some (applyChain t d.v ctx.schemaVersion (Elem.doc d)) ∧
      ∃ d', applyChain t d.v ctx.schemaVersion (Elem.doc d) = Elem.doc d' ∧
        d'.v = ctx.schemaVersion := by
  have hne : input ≠ [] := by
    intro h
    rw [h] at hp
    simp at hp
  have hchar := updatedDocuments_batch_char ctx t input hasCollection projection hproj hne
    hrev Ht hle
  have hnames : projectedEmbeddedDocumentNames ctx projection = [] := by
    simp [projectedEmbeddedDocumentNames, hembNone]
  simp only [hnames, List.isEmpty_nil, Bool.not_true, Bool.and_false, Bool.false_eq_true,
    if_false, Bool.false_and] at hchar
  have hdvv : elemVersion ctx (Elem.doc d) ≤ ctx.schemaVersion := by
    rw [elemVersion]
    omega
  have hchain : migrateTo ctx t ctx.schemaVersion (Elem.doc d) =
      applyChain t d.v ctx.schemaVersion (Elem.doc d) := by
    have := migrateTo_eq_applyChain ctx t ctx.schemaVersion (Elem.doc d) hdvv
    rw [this]
    rfl
  refine ⟨_, _, hchar, rfl, ?_, ?_⟩
  · rw [List.getElem?_map, hp, Option.map_some', hchain]
  · obtain ⟨d', hd', hdv'⟩ := migrateTo_doc ctx t Ht ctx.schemaVersion (Elem.doc d)
      (by rw [elemVersion]; omega) (le_refl _)
    exact ⟨d', by rw [← hchain, hd'], hdv'⟩

/-- C1 witness: the amended chain-composition claim checked on `ctxTwo`
(`schemaVersion = 2`) with a single version-0 document: the output at position 0
is the two-step chain value with `_v = 2`. -/
theorem C1_chain_composition_witness :
    ∃ r l', updatedDocuments ctxTwo (.batch [Elem.doc ⟨3, 0, []⟩]) false [] = .ok r ∧
      r.output = .batch l' ∧
      l'[0]? = some (applyChain bumpT 0 2 (Elem.doc ⟨3, 0, []⟩)) ∧
      ∃ d', applyChain bumpT 0 2 (Elem.doc ⟨3, 0, []⟩) = Elem.doc d' ∧ d'.v = 2 := by
  exact C1_chain_composition ctxTwo bumpT [Elem.doc ⟨3, 0, []⟩] false [] rfl ctxTwo_rev
    (fun i _ => bumpT_spec i)
    (by intro e he; simp only [List.mem_singleton] at he; subst he; decide)
    rfl 0 ⟨3, 0, []⟩ rfl (by decide)

/-- Positional form of the batch characterization for non-embedded schemas:
each output position is the per-element pipeline applied to the same input
position. -/
theorem updatedDocuments_batch_elems (ctx : Context) (t : Nat → Elem → Elem)
    (input : List Elem) (hasCollection : Bool) (projection : Projection)
    (hproj : validateProjection projection = true)
    (hne : input ≠ [])
    (hrev : ∀ i, i < ctx.schemaVersion → ctx.revisions[i]? = some (.update (t i)))
    (Ht : ∀ i, i < ctx.schemaVersion → ∀ e, ∃ d, t i e = Elem.doc d ∧ d.v = i + 1)
    (hle : ∀ e ∈ input, elemVersion ctx e ≤ ctx.schemaVersion)
    (hnd : (ctx.embeddedDocumentSchemas.map Prod.fst).Nodup)
    (hnotEmb : ctx.embedded = false) :
    ∃ r l', updatedDocuments ctx (.batch input) hasCollection projection = .ok r ∧
      r.output = .batch l' ∧ l'.length = input.length ∧
      ∀ q, l'[q]? = input[q]?.map (finalElem ctx t projection input q) := by
  have hchar := updatedDocuments_batch_char ctx t input hasCollection projection hproj hne
    hrev Ht hle
  set names := projectedEmbeddedDocumentNames ctx projection with hnames
  have hndn : names.Nodup := List.Nodup.filter _ hnd
  have hupd : names.map (fun n => (n, embeddedSchemaApply ctx n
      ((lookupAssoc (transformInput ctx input projection).embeddedDocuments n).getD []))) =
      names.map (fun n => (n, nestedResults ctx projection input n)) := by
    refine List.map_congr_left (fun n hn => ?_)
    rw [transformInput_embedded ctx input projection hndn,
      lookupAssoc_map_self _ _ _ hn]
    rfl
  simp only [hnotEmb, Bool.not_false, if_true] at hchar
  rw [hupd] at hchar
  set finalDocs := input.map (migrateTo ctx t ctx.schemaVersion) with hfd
  set updEmb := names.map (fun n => (n, nestedResults ctx projection input n)) with hue
  by_cases hempty : names.isEmpty
  · have hnamesnil : names = [] := List.isEmpty_iff.mp hempty
    rw [hnamesnil] at hchar
    simp only [List.isEmpty_nil, Bool.not_true, Bool.true_and, Bool.and_false,
      Bool.false_eq_true, if_false] at hchar
    refine ⟨_, finalDocs, hchar, rfl, by rw [hfd]; simp, ?_⟩
    intro q
    rw [hfd, List.getElem?_map]
    cases input[q]? with
    | none => rfl
    | some e =>
      simp only [Option.map_some']
      refine congrArg some ?_
      rw [finalElem, ← hnames, hnamesnil]
      rfl
  · have hcond : (!names.isEmpty) = true := by simp [hempty]
    simp only [hcond, Bool.true_and, if_true] at hchar
    refine ⟨_, spliceEmbedded names updEmb finalDocs, hchar, rfl, ?_, ?_⟩
    · rw [spliceEmbedded_length, hfd]
      exact List.length_map _ _
    · intro q
      rw [spliceEmbedded_getElem?, hfd, List.getElem?_map]
      cases input[q]? with
      | none => rfl
      | some e =>
        simp only [Option.map_some']
        refine congrArg some ?_
        rw [finalElem, ← hnames, ← hue]

/-- Positional form of the single-input characterization for non-embedded
schemas. -/
theorem updatedDocuments_single_elems (ctx : Context) (t : Nat → Elem → Elem)
    (e : Elem) (hasCollection : Bool) (projection : Projection)
    (hproj : validateProjection projection = true)
    (hrev : ∀ i, i < ctx.schemaVersion → ctx.revisions[i]? = some (.update (t i)))
    (Ht : ∀ i, i < ctx.schemaVersion → ∀ e, ∃ d, t i e = Elem.doc d ∧ d.v = i + 1)
    (hle : elemVersion ctx e ≤ ctx.schemaVersion)
    (hnd : (ctx.embeddedDocumentSchemas.map Prod.fst).Nodup)
    (hnotEmb : ctx.embedded = false) :
    ∃ r, updatedDocuments ctx (.single e) hasCollection projection = .ok r ∧
      r.output = .single (finalElem ctx t projection [e] 0 e) := by
  have hchar := updatedDocuments_single_char ctx t e hasCollection projection hproj
    hrev Ht hle
  set names := projectedEmbeddedDocumentNames ctx projection with hnames
  have hndn : names.Nodup := List.Nodup.filter _ hnd
  have hupd : names.map (fun n => (n, embeddedSchemaApply ctx n
      ((lookupAssoc (transformInput ctx [e] projection).embeddedDocuments n).getD []))) =
      names.map (fun n => (n, nestedResults ctx projection [e] n)) := by
    refine List.map_congr_left (fun n hn => ?_)
    rw [transformInput_embedded ctx [e] projection hndn,
      lookupAssoc_map_self _ _ _ hn]
    rfl
  simp only [hnotEmb, Bool.not_false, if_true] at hchar
  rw [hupd] at hchar
  set updEmb := names.map (fun n => (n, nestedResults ctx projection [e] n)) with hue
  by_cases hempty : names.isEmpty
  · have hnamesnil : names = [] := List.isEmpty_iff.mp hempty
    rw [hnamesnil] at hchar
    simp only [List.isEmpty_nil, Bool.not_true, Bool.true_and, Bool.and_false,
      Bool.false_eq_true, if_false] at hchar
    refine ⟨_, hchar, ?_⟩
    refine congrArg Output.single ?_
    rw [finalElem, ← hnames, hnamesnil]
    rfl
  · have hcond : (!names.isEmpty) = true := by simp [hempty]
    simp only [hcond, Bool.true_and, if_true] at hchar
    refine ⟨_, hchar, ?_⟩
    refine congrArg Output.single ?_
    have h0 : (spliceEmbedded names updEmb [migrateTo ctx t ctx.schemaVersion e])[0]? =
        some (spliceElem names updEmb 0 (migrateTo ctx t ctx.schemaVersion e)) := by
      rw [spliceEmbedded_getElem?]
      rfl
    rw [List.getD_eq_getElem?_getD, h0, Option.getD_some, finalElem, ← hnames, ← hue]

/-- C2 counterexample: the claim promises shape preservation for every input;
with `ctxOne` (`schemaVersion = 1`) and the batch `[{_v: 0}, {_v: 5}]` the
output array has length 1, not 2 — the over-versioned document is dropped. -/
theorem C2_counterexample :
    updatedDocuments ctxOne (.batch [Elem.doc ⟨1, 0, []⟩, Elem.doc ⟨2, 5, []⟩]) false [] =
      .ok ⟨.batch [Elem.doc ⟨1, 1, []⟩], none⟩ ∧
    ([Elem.doc ⟨1, 1, []⟩] : List Elem).length ≠
      ([Elem.doc ⟨1, 0, []⟩, Elem.doc ⟨2, 5, []⟩] : List Elem).length := by
  exact ⟨rfl, by decide⟩

/-- C2 (amended): the engine preserves the caller's shape and order provided
every present document carries `_v ≤ schemaVersion` (the amendment forced by the
counterexample): empty array in, empty array out; a falsy single input comes
back as the same falsy value; a single document yields a single (truthy)
document; an array yields an array of the same length whose element at each
position is the per-element pipeline (migration plus embedded splice) applied to
the input element at that same position, regardless of how many migration steps
each document took. -/
theorem C2_shape_preservation (ctx : Context) (t : Nat → Elem → Elem)
    (hasCollection : Bool) (projection : Projection)
    (hproj : validateProjection projection = true)
    (hrev : ∀ i, i < ctx.schemaVersion → ctx.revisions[i]? = some (.update (t i)))
    (Ht : ∀ i, i < ctx.schemaVersion → ∀ e, ∃ d, t i e = Elem.doc d ∧ d.v = i + 1)
    (hnd : (ctx.embeddedDocumentSchemas.map Prod.fst).Nodup)
    (hnotEmb : ctx.embedded = false) :
    (updatedDocuments ctx (.batch []) hasCollection projection = .ok ⟨.batch [], none⟩) ∧
    (∀ e : Elem, e.truthy = false →
      ∃ r, updatedDocuments ctx (.single e) hasCollection projection = .ok r ∧
        r.output = .single e) ∧
    (∀ d : Doc, d.v ≤ ctx.schemaVersion →
      ∃ r e', updatedDocuments ctx (.single (Elem.doc d)) hasCollection projection = .ok r ∧
        r.output = .single e' ∧ e'.truthy = true) ∧
    (∀ input : List Elem, (∀ e ∈ input, elemVersion ctx e ≤ ctx.schemaVersion) →
      ∃ r l', updatedDocuments ctx (.batch input) hasCollection projection = .ok r ∧
        r.output = .batch l' ∧ l'.length = input.length ∧
        ∀ q, l'[q]? = input[q]?.map (finalElem ctx t projection input q)) := by
  refine ⟨?_, ?_, ?_, ?_⟩
  · rw [updatedDocuments]
    simp [hproj]
  · intro e he
    have hle : elemVersion ctx e ≤ ctx.schemaVersion := by
      cases e with
      | doc d => simp [Elem.truthy] at he
      | jsUndefined => exact le_refl _
      | jsNull => exact le_refl _
      | jsFalse => exact le_refl _
    obtain ⟨r, hr, hout⟩ := updatedDocuments_single_elems ctx t e hasCollection projection
      hproj hrev Ht hle hnd hnotEmb
    refine ⟨r, hr, ?_⟩
    rw [hout]
    refine congrArg Output.single ?_
    rw [finalElem, migrateTo_of_ge ctx t ctx.schemaVersion e ?_]
    · exact spliceElem_falsy _ _ _ e he
    · cases e with
      | doc d => simp [Elem.truthy] at he
      | jsUndefined => exact le_refl _
      | jsNull => exact le_refl _
      | jsFalse => exact le_refl _
  · intro d hdle
    obtain ⟨r, hr, hout⟩ := updatedDocuments_single_elems ctx t (Elem.doc d) hasCollection
      projection hproj hrev Ht (by rw [elemVersion]; omega) hnd hnotEmb
    have hdoc : ∃ d0, migrateTo ctx t ctx.schemaVersion (Elem.doc d) = Elem.doc d0 := by
      by_cases hcase : d.v < ctx.schemaVersion
      · obtain ⟨d0, hd0, _⟩ := migrateTo_doc ctx t Ht ctx.schemaVersion (Elem.doc d)
          (by rw [elemVersion]; omega) (le_refl _)
        exact ⟨d0, hd0⟩
      · refine ⟨d, migrateTo_of_ge ctx t ctx.schemaVersion (Elem.doc d) ?_⟩
        rw [elemVersion]
        omega
    obtain ⟨d0, hd0⟩ := hdoc
    obtain ⟨d1, hd1, _, _⟩ := spliceElem_doc (projectedEmbeddedDocumentNames ctx projection)
      ((projectedEmbeddedDocumentNames ctx projection).map
        (fun n => (n, nestedResults ctx projection [Elem.doc d] n))) 0 d0
    refine ⟨r, Elem.doc d1, hr, ?_, rfl⟩
    rw [hout]
    refine congrArg Output.single ?_
    rw [finalElem, hd0, hd1]
  · intro input hle
    cases input with
    | nil =>
      refine ⟨⟨.batch [], none⟩, [], ?_, rfl, rfl, fun q => rfl⟩
      rw [updatedDocuments]
      simp [hproj]
    | cons e0 rest =>
      exact updatedDocuments_batch_elems ctx t (e0 :: rest) hasCollection projection hproj
        (by simp) hrev Ht hle hnd hnotEmb

/-- C2 witness: the amended shape claim checked on the embedded-field context
`ctxEmb`: empty array, falsy single value, and a two-element mixed batch. -/
theorem C2_shape_preservation_witness :
    (updatedDocuments ctxEmb (.batch []) true [] = .ok ⟨.batch [], none⟩) ∧
    (∃ r, updatedDocuments ctxEmb (.single Elem.jsNull) true [] = .ok r ∧
      r.output = .single Elem.jsNull) ∧
    (∃ r l', updatedDocuments ctxEmb
        (.batch [Elem.jsFalse, Elem.doc ⟨1, 0, [("embedded", .embDoc 0 3)]⟩]) true [] =
          .ok r ∧
      r.output = .batch l' ∧ l'.length = 2 ∧
      ∀ q, l'[q]? =
        ([Elem.jsFalse, Elem.doc ⟨1, 0, [("embedded", .embDoc 0 3)]⟩] :
          List Elem)[q]?.map
          (finalElem ctxEmb bumpT []
            [Elem.jsFalse, Elem.doc ⟨1, 0, [("embedded", .embDoc 0 3)]⟩] q)) := by
  have h := C2_shape_preservation ctxEmb bumpT true [] rfl
    (fun i hi => absurd hi (by simp [ctxEmb]))
    (fun i hi => absurd hi (by simp [ctxEmb]))
    (by simp [ctxEmb]) rfl
  refine ⟨h.1, h.2.1 Elem.jsNull rfl, ?_⟩
  exact h.2.2.2 [Elem.jsFalse, Elem.doc ⟨1, 0, [("embedded", .embDoc 0 3)]⟩]
    (by intro e he; simp only [List.mem_cons, List.mem_singleton] at he
        rcases he with rfl | rfl | h0
        · decide
        · decide
        · simp at h0)

/-- C9 counterexample: the claim says splicing replaces the embedded field "only
at input positions whose embedded entry is defined".  On `ctxEmb`, a truthy
parent document without the `embedded` field has an undefined entry
(`document && document['embedded']` is `undefined`), yet the splice loop still
assigns: the returned document gains an `embedded` key holding `undefined`, so
its key set differs from the input's. -/
theorem C9_counterexample :
    (Elem.doc ⟨1, 0, [("value", FieldVal.prim 5)]⟩).andField "embedded" =
      FieldVal.undefinedF ∧
    updatedDocuments ctxEmb
        (.single (Elem.doc ⟨1, 0, [("value", FieldVal.prim 5)]⟩)) false [] =
      .ok ⟨.single (Elem.doc ⟨1, 0,
        [("value", FieldVal.prim 5), ("embedded", FieldVal.undefinedF)]⟩), none⟩ ∧
    (⟨1, 0, [("value", FieldVal.prim 5), ("embedded", FieldVal.undefinedF)]⟩ : Doc).fields ≠
      (⟨1, 0, [("value", FieldVal.prim 5)]⟩ : Doc).fields := by
  refine ⟨rfl, rfl, by decide⟩

/-- C9 (amended): after the nested results are known, the splice loop assigns,
for every truthy final document position and every projected embedded name, the
nested engine's result element at that position — when the entry was undefined
the field is set to `undefined` (creating the key) rather than left untouched;
positions holding a falsy parent are skipped without any field assignment. -/
theorem C9_splice_assignment (ctx : Context) (t : Nat → Elem → Elem)
    (input : List Elem) (hasCollection : Bool) (projection : Projection)
    (hproj : validateProjection projection = true)
    (hrev : ∀ i, i < ctx.schemaVersion → ctx.revisions[i]? = some (.update (t i)))
    (Ht : ∀ i, i < ctx.schemaVersion → ∀ e, ∃ d, t i e = Elem.doc d ∧ d.v = i + 1)
    (hnd : (ctx.embeddedDocumentSchemas.map Prod.fst).Nodup)
    (hnotEmb : ctx.embedded = false)
    (hle : ∀ e ∈ input, elemVersion ctx e ≤ ctx.schemaVersion)
    (hne : input ≠ []) :
    ∃ r l', updatedDocuments ctx (.batch input) hasCollection projection = .ok r ∧
      r.output = .batch l' ∧
      (∀ (p : Nat) (e : Elem), input[p]? = some e → e.truthy = false → l'[p]? = some e) ∧
      (∀ (p : Nat) (d : Doc), input[p]? = some (Elem.doc d) →
        ∃ d', l'[p]? = some (Elem.doc d') ∧
          ∀ name ∈ projectedEmbeddedDocumentNames ctx projection,
            lookupAssoc d'.fields name =
              some ((nestedResults ctx projection input name).getD p .undefinedF)) := by
  obtain ⟨r, l', hr, hout, _, hq⟩ := updatedDocuments_batch_elems ctx t input hasCollection
    projection hproj hne hrev Ht hle hnd hnotEmb
  set names := projectedEmbeddedDocumentNames ctx projection with hnames
  set upd := names.map (fun n => (n, nestedResults ctx projection input n)) with hupd
  have hndn : names.Nodup := List.Nodup.filter _ hnd
  refine ⟨r, l', hr, hout, ?_, ?_⟩
  · intro p e hp he
    rw [hq p, hp, Option.map_some']
    refine congrArg some ?_
    have hge : ctx.schemaVersion ≤ elemVersion ctx e := by
      cases e with
      | doc d => simp [Elem.truthy] at he
      | jsUndefined => exact le_refl _
      | jsNull => exact le_refl _
      | jsFalse => exact le_refl _
    rw [finalElem, migrateTo_of_ge ctx t ctx.schemaVersion e hge]
    exact spliceElem_falsy _ _ _ e he
  · intro p d hp
    have hdoc : ∃ d0, migrateTo ctx t ctx.schemaVersion (Elem.doc d) = Elem.doc d0 := by
      by_cases hcase : d.v < ctx.schemaVersion
      · obtain ⟨d0, hd0, _⟩ := migrateTo_doc ctx t Ht ctx.schemaVersion (Elem.doc d)
          (by rw [elemVersion]; omega) (le_refl _)
        exact ⟨d0, hd0⟩
      · refine ⟨d, migrateTo_of_ge ctx t ctx.schemaVersion (Elem.doc d) ?_⟩
        rw [elemVersion]
        omega
    obtain ⟨d0, hd0⟩ := hdoc
    obtain ⟨d1, hd1, _, _⟩ := spliceElem_doc names upd p d0
    refine ⟨d1, ?_, ?_⟩
    · rw [hq p, hp, Option.map_some']
      refine congrArg some ?_
      rw [finalElem, ← hnames, ← hupd, hd0, hd1]
    · intro name hname
      obtain ⟨d2, hd2, hlook⟩ := spliceElem_lookup names hndn upd p d0 name hname
      have hd12 : d2 = d1 := by
        rw [hd2] at hd1
        injection hd1
      rw [← hd12, hlook, hupd, lookupAssoc_map_self _ _ _ hname]
      rfl

/-- C9 witness: the amended splice claim checked on `ctxEmb` with a falsy
position and a truthy parent whose embedded field is stale. -/
theorem C9_splice_assignment_witness :
    ∃ r l', updatedDocuments ctxEmb
        (.batch [Elem.jsNull, Elem.doc ⟨1, 0, [("embedded", FieldVal.embDoc 0 3)]⟩])
        false [] = .ok r ∧
      r.output = .batch l' ∧
      (∀ (p : Nat) (e : Elem), ([Elem.jsNull,
          Elem.doc ⟨1, 0, [("embedded", FieldVal.embDoc 0 3)]⟩] : List Elem)[p]? = some e →
        e.truthy = false → l'[p]? = some e) ∧
      (∀ (p : Nat) (d : Doc), ([Elem.jsNull,
          Elem.doc ⟨1, 0, [("embedded", FieldVal.embDoc 0 3)]⟩] : List Elem)[p]? =
            some (Elem.doc d) →
        ∃ d', l'[p]? = some (Elem.doc d') ∧
          ∀ name ∈ projectedEmbeddedDocumentNames ctxEmb [],
            lookupAssoc d'.fields name =
              some ((nestedResults ctxEmb []
                [Elem.jsNull, Elem.doc ⟨1, 0, [("embedded", FieldVal.embDoc 0 3)]⟩]
                name).getD p .undefinedF)) := by
  exact C9_splice_assignment ctxEmb bumpT
    [Elem.jsNull, Elem.doc ⟨1, 0, [("embedded", FieldVal.embDoc 0 3)]⟩] false [] rfl
    (fun i hi => absurd hi (by simp [ctxEmb]))
    (fun i hi => absurd hi (by simp [ctxEmb]))
    (by simp [ctxEmb]) rfl
    (by intro e he
        simp only [List.mem_cons, List.mem_singleton] at he
        rcases he with rfl | rfl | h0
        · decide
        · decide
        · simp at h0)
    (by simp)

/-! ## Bucket well-formedness (claim C10) -/

theorem WFBucket_empty : WFBucket ⟨[], []⟩ := ⟨rfl, List.Pairwise.nil⟩

theorem getD_WF {v : Nat} {buckets : List (Nat × VersionBucket)}
    (hInv : LiveInv v buckets) (k : Nat) (hk : v ≤ k) :
    WFBucket ((findBucket buckets k).getD ⟨[], []⟩) := by
  cases h : findBucket buckets k with
  | none => exact WFBucket_empty
  | some b => exact hInv.1 k b hk h

theorem getD_disjoint {v : Nat} {buckets : List (Nat × VersionBucket)}
    (hInv : LiveInv v buckets) (k1 k2 : Nat) (h1 : v ≤ k1) (h2 : v ≤ k2) (hne : k1 ≠ k2) :
    ∀ i ∈ ((findBucket buckets k1).getD ⟨[], []⟩).metaData.map DocumentMetaData.index,
      i ∉ ((findBucket buckets k2).getD ⟨[], []⟩).metaData.map DocumentMetaData.index := by
  cases hb1 : findBucket buckets k1 with
  | none => intro i hi; simp at hi
  | some b1 =>
    cases hb2 : findBucket buckets k2 with
    | none => intro i hi hmem; simp at hmem
    | some b2 => exact hInv.2 k1 k2 b1 b2 h1 h2 hne hb1 hb2

theorem c10_init (ctx : Context) (input : List Elem) (projection : Projection) :
    LiveInv 0 (transformInput ctx input projection).documentsByVersion := by
  set names := projectedEmbeddedDocumentNames ctx projection with hnames
  have hmemidx : ∀ (k : Nat) (b : VersionBucket),
      findBucket (transformInput ctx input projection).documentsByVersion k = some b →
      ∀ i, i ∈ b.metaData.map DocumentMetaData.index →
        ∃ x ∈ enumFrom 0 input, elemVersion ctx x.2 = k ∧ x.1 = i := by
    intro k b hb i hi
    rw [transformInput_bucket] at hb
    have hbp := optBucket_eq_some hb
    subst hbp
    rw [pairsBucket] at hi
    simp only [List.map_map] at hi
    obtain ⟨z, hz, hzi⟩ := List.mem_map.mp hi
    rw [← hnames, bucketItems] at hz
    obtain ⟨x, hx, hxz⟩ := List.mem_map.mp hz
    obtain ⟨hxe, hxk⟩ := List.mem_filter.mp hx
    refine ⟨x, hxe, by simpa using hxk, ?_⟩
    rw [← hzi, ← hxz]
    rfl
  constructor
  · intro k b _ hb
    rw [transformInput_bucket] at hb
    have hbp := optBucket_eq_some hb
    subst hbp
    constructor
    · rw [pairsBucket]
      simp
    · rw [pairsBucket]
      simp only
      rw [List.pairwise_map]
      rw [← hnames, bucketItems, List.pairwise_map]
      refine List.Pairwise.imp ?_ ((enumFrom_pairwise 0 input).filter _)
      intro a b hab
      simpa [mkMeta] using hab
  · intro k1 k2 b1 b2 _ _ hne hb1 hb2 i hi1 hi2
    obtain ⟨x, hx, hxk, hxi⟩ := hmemidx k1 b1 hb1 i hi1
    obtain ⟨y, hy, hyk, hyi⟩ := hmemidx k2 b2 hb2 i hi2
    have hxy : x = y := enumFrom_fst_inj hx hy (by rw [hxi, hyi])
    rw [hxy] at hxk
    exact hne (by rw [← hxk, ← hyk])

theorem c10_step (ctx : Context) (v : Nat) (buckets buckets' : List (Nat × VersionBucket))
    (hlen : ∀ ds, (applyRevision (revisionAt ctx v) ds).length = ds.length)
    (hInv : LiveInv v buckets)
    (hstep : driveStep ctx buckets v = .ok buckets') : LiveInv (v + 1) buckets' := by
  rw [driveStep] at hstep
  set bucket := (findBucket buckets v).getD ⟨[], []⟩ with hbk
  set documents := applyRevision (revisionAt ctx v) bucket.documents with hdc
  set nextB := (findBucket buckets (v + 1)).getD ⟨[], []⟩ with hnb
  by_cases hcheck : (documents.all (fun d => checkVersionTag d (v + 1))) = true
  · rw [if_pos hcheck] at hstep
    have h29 : buckets' = setBucket buckets (v + 1)
        ⟨(mergeLoop (documents.length + nextB.documents.length) documents bucket.metaData
          nextB.documents nextB.metaData).1,
        (mergeLoop (documents.length + nextB.documents.length) documents bucket.metaData
          nextB.documents nextB.metaData).2⟩ := by
      exact (Except.ok.inj hstep).symm
    have hWFv := getD_WF hInv v (le_refl v)
    have hWFn := getD_WF hInv (v + 1) (by omega)
    rw [← hbk] at hWFv
    rw [← hnb] at hWFn
    have hdlen : documents.length = bucket.metaData.length := by
      rw [hdc, hlen]
      exact hWFv.1
    set cz := documents.zip bucket.metaData with hcz
    set nz := nextB.documents.zip nextB.metaData with hnz
    have hczf : cz.map Prod.fst = documents :=
      List.map_fst_zip _ _ (by omega)
    have hczs : cz.map Prod.snd = bucket.metaData :=
      List.map_snd_zip _ _ (by omega)
    have hnzf : nz.map Prod.fst = nextB.documents :=
      List.map_fst_zip _ _ (by rw [hWFn.1])
    have hnzs : nz.map Prod.snd = nextB.metaData :=
      List.map_snd_zip _ _ (by rw [hWFn.1])
    have hmerge : mergeLoop (documents.length + nextB.documents.length) documents
        bucket.metaData nextB.documents nextB.metaData =
        ((mergeZ cz nz).map Prod.fst, (mergeZ cz nz).map Prod.snd) := by
      have hfuel : documents.length + nextB.documents.length = cz.length + nz.length := by
        rw [hcz, hnz, List.length_zip, List.length_zip]
        rw [hdlen, hWFn.1]
        simp
      rw [hfuel, ← hczf, ← hczs, ← hnzf, ← hnzs]
      exact mergeLoop_eq_mergeZ _ cz nz rfl
    have hczp : cz.Pairwise (fun a b => a.2.index < b.2.index) := by
      have h := hWFv.2
      rw [← hczs] at h
      exact (List.pairwise_map (f := Prod.snd)
        (R := fun a b : DocumentMetaData => a.index < b.index)).mp h
    have hnzp : nz.Pairwise (fun a b => a.2.index < b.2.index) := by
      have h := hWFn.2
      rw [← hnzs] at h
      exact (List.pairwise_map (f := Prod.snd)
        (R := fun a b : DocumentMetaData => a.index < b.index)).mp h
    have hdisj : ∀ a ∈ cz, ∀ b ∈ nz, a.2.index ≠ b.2.index := by
      intro a ha b hb heq
      have ha2 : a.2 ∈ bucket.metaData := by
        rw [← hczs]
        exact List.mem_map_of_mem Prod.snd ha
      have hb2 : b.2 ∈ nextB.metaData := by
        rw [← hnzs]
        exact List.mem_map_of_mem Prod.snd hb
      have hd := getD_disjoint hInv v (v + 1) (le_refl v) (by omega) (by omega)
      rw [← hbk, ← hnb] at hd
      exact hd a.2.index (List.mem_map_of_mem DocumentMetaData.index ha2)
        (by rw [heq]; exact List.mem_map_of_mem DocumentMetaData.index hb2)
    have hmergedWF : WFBucket ⟨(mergeZ cz nz).map Prod.fst, (mergeZ cz nz).map Prod.snd⟩ := by
      constructor
      · simp
      · simp only
        rw [List.pairwise_map]
        exact mergeZ_sorted cz nz hczp hnzp hdisj
    have hmergedIdx : ∀ i, i ∈ ((mergeZ cz nz).map Prod.snd).map DocumentMetaData.index →
        i ∈ bucket.metaData.map DocumentMetaData.index ∨
        i ∈ nextB.metaData.map DocumentMetaData.index := by
      intro i hi
      rw [List.map_map] at hi
      obtain ⟨z, hz, hzi⟩ := List.mem_map.mp hi
      rcases (mergeZ_mem cz nz z).mp hz with hzc | hzn
      · left
        rw [← hczs]
        rw [← hzi]
        exact List.mem_map_of_mem _ (List.mem_map_of_mem Prod.snd hzc)
      · right
        rw [← hnzs]
        rw [← hzi]
        exact List.mem_map_of_mem _ (List.mem_map_of_mem Prod.snd hzn)
    rw [hmerge] at h29
    subst h29
    constructor
    · intro k b hk hb
      rw [findBucket_setBucket] at hb
      by_cases hkv : v + 1 = k
      · rw [if_pos hkv] at hb
        have hbeq : b = ⟨(mergeZ cz nz).map Prod.fst, (mergeZ cz nz).map Prod.snd⟩ :=
          (Option.some_inj.mp hb).symm
        rw [hbeq]
        exact hmergedWF
      · rw [if_neg hkv] at hb
        exact hInv.1 k b (by omega) hb
    · intro k1 k2 b1 b2 hk1 hk2 hne hb1 hb2
      rw [findBucket_setBucket] at hb1 hb2
      by_cases hk1v : v + 1 = k1
      · rw [if_pos hk1v] at hb1
        have hb1eq : b1 = ⟨(mergeZ cz nz).map Prod.fst, (mergeZ cz nz).map Prod.snd⟩ :=
          (Option.some_inj.mp hb1).symm
        have hk2v : ¬ (v + 1 = k2) := by omega
        rw [if_neg hk2v] at hb2
        intro i hi1 hi2
        rw [hb1eq] at hi1
        rcases hmergedIdx i hi1 with hiv | hivn
        · have hd := getD_disjoint hInv v k2 (le_refl v) (by omega) (by omega)
          rw [← hbk, hb2] at hd
          simp only [Option.getD_some] at hd
          exact hd i hiv hi2
        · have hd := getD_disjoint hInv (v + 1) k2 (by omega) (by omega) (by omega)
          rw [← hnb, hb2] at hd
          simp only [Option.getD_some] at hd
          exact hd i hivn hi2
      · by_cases hk2v : v + 1 = k2
        · rw [if_pos hk2v] at hb2
          have hb2eq : b2 = ⟨(mergeZ cz nz).map Prod.fst, (mergeZ cz nz).map Prod.snd⟩ :=
            (Option.some_inj.mp hb2).symm
          rw [if_neg hk1v] at hb1
          intro i hi1 hi2
          rw [hb2eq] at hi2
          rcases hmergedIdx i hi2 with hiv | hivn
          · have hd := getD_disjoint hInv k1 v (by omega) (le_refl v) (by omega)
            rw [← hbk, hb1] at hd
            simp only [Option.getD_some] at hd
            exact hd i hi1 hiv
          · have hd := getD_disjoint hInv k1 (v + 1) (by omega) (by omega) (by omega)
            rw [← hnb, hb1] at hd
            simp only [Option.getD_some] at hd
            exact hd i hi1 hivn
        · rw [if_neg hk1v] at hb1
          rw [if_neg hk2v] at hb2
          exact hInv.2 k1 k2 b1 b2 (by omega) (by omega) hne hb1 hb2
  · rw [if_neg hcheck] at hstep
    exact absurd hstep (by simp)

theorem c10_loop (ctx : Context)
    (hlen : ∀ u ds, (applyRevision (revisionAt ctx u) ds).length = ds.length) :
    ∀ fuel v buckets final, LiveInv v buckets →
      driveLoop ctx fuel v buckets = .ok final → LiveInv (v + fuel) final := by
  intro fuel
  induction fuel with
  | zero =>
    intro v buckets final hInv hloop
    rw [driveLoop] at hloop
    cases hloop
    simpa using hInv
  | succ n ih =>
    intro v buckets final hInv hloop
    rw [driveLoop] at hloop
    cases hstep : driveStep ctx buckets v with
    | ok next =>
      rw [hstep] at hloop
      have hnext := c10_step ctx v buckets next (hlen v) hInv hstep
      have hfin := ih (v + 1) next final hnext hloop
      have harith : v + 1 + n = v + (n + 1) := by omega
      rwa [harith] at hfin
    | error e =>
      rw [hstep] at hloop
      exact absurd hloop (by simp)

/-- C10: across the migration driver, every live bucket keeps its `documents`
and `metaData` arrays the same length, with strictly increasing
original-position indices and pairwise-disjoint index sets across buckets: the
input bucketing establishes this invariant, each driver iteration (applying the
revision and two-pointer merging into the bucket at `version + 1`) preserves
it, and after a completed loop the destination bucket is well-formed, i.e.
its arrays are aligned and ordered by original input position. -/
theorem C10_bucket_invariant (ctx : Context)
    (hlen : ∀ u ds, (applyRevision (revisionAt ctx u) ds).length = ds.length) :
    (∀ input projection,
      LiveInv 0 (transformInput ctx input projection).documentsByVersion) ∧
    (∀ v buckets buckets', LiveInv v buckets →
      driveStep ctx buckets v = .ok buckets' → LiveInv (v + 1) buckets') ∧
    (∀ fuel v buckets final, LiveInv v buckets →
      driveLoop ctx fuel v buckets = .ok final →
      LiveInv (v + fuel) final ∧
      WFBucket ((findBucket final (v + fuel)).getD ⟨[], []⟩)) := by
  refine ⟨fun input projection => c10_init ctx input projection,
    fun v buckets buckets' hInv hstep => c10_step ctx v buckets buckets' (hlen v) hInv hstep,
    fun fuel v buckets final hInv hloop => ?_⟩
  have h := c10_loop ctx hlen fuel v buckets final hInv hloop
  exact ⟨h, getD_WF h (v + fuel) (le_refl _)⟩

theorem C10_bucket_invariant_witness :
    (∀ u ds, (applyRevision (revisionAt ctxOne u) ds).length = ds.length) ∧
    ((∀ input projection,
       LiveInv 0 (transformInput ctxOne input projection).documentsByVersion) ∧
     (∀ v buckets buckets', LiveInv v buckets →
       driveStep ctxOne buckets v = .ok buckets' → LiveInv (v + 1) buckets') ∧
     (∀ fuel v buckets final, LiveInv v buckets →
       driveLoop ctxOne fuel v buckets = .ok final →
       LiveInv (v + fuel) final ∧
       WFBucket ((findBucket final (v + fuel)).getD ⟨[], []⟩))) := by
  have hlen : ∀ u ds, (applyRevision (revisionAt ctxOne u) ds).length = ds.length := by
    intro u ds
    cases u with
    | zero => simp [revisionAt, ctxOne, applyRevision]
    | succ n => simp [revisionAt, ctxOne, applyRevision, List.getD]
  exact ⟨hlen, C10_bucket_invariant ctxOne hlen⟩

theorem C8_invalid_projection_fails_witness :
    (∃ kv ∈ ([("a", ProjectionValue.invalid)] : Projection),
      kv.2 ≠ ProjectionValue.exclude) ∧
    updatedDocuments ctxOne (.single .jsNull) false [("a", ProjectionValue.invalid)] =
      .error .invalidProjection := by
  have hbad : ∃ kv ∈ ([("a", ProjectionValue.invalid)] : Projection),
      kv.2 ≠ ProjectionValue.exclude := ⟨("a", .invalid), by simp, by decide⟩
  exact ⟨hbad, C8_invalid_projection_fails ctxOne (.single .jsNull) false
    [("a", ProjectionValue.invalid)] hbad⟩

theorem C3_version_mismatch_fails_witness :
    validateProjection [] = true ∧
    ([Elem.doc ⟨1, 0, []⟩] : List Elem) ≠ [] ∧
    (∀ e ∈ ([Elem.doc ⟨1, 0, []⟩] : List Elem), elemVersion ctxBad e = 0) ∧
    0 < ctxBad.schemaVersion ∧
    (∃ e ∈ applyRevision (revisionAt ctxBad 0) [Elem.doc ⟨1, 0, []⟩],
      checkVersionTag e 1 = false) ∧
    updatedDocuments ctxBad (.batch [Elem.doc ⟨1, 0, []⟩]) false [] =
      .error (.versionMismatch 0) := by
  have hver : ∀ e ∈ ([Elem.doc ⟨1, 0, []⟩] : List Elem), elemVersion ctxBad e = 0 := by
    decide
  have hbad : ∃ e ∈ applyRevision (revisionAt ctxBad 0) [Elem.doc ⟨1, 0, []⟩],
      checkVersionTag e 1 = false := ⟨Elem.doc ⟨1, 0, []⟩, by decide, rfl⟩
  exact ⟨rfl, by decide, hver, by decide, hbad,
    C3_version_mismatch_fails ctxBad 0 [Elem.doc ⟨1, 0, []⟩] false [] rfl (by decide)
      hver (by decide) hbad⟩

theorem C5_staleness_flag_witness :
    findBucket (transformInput ctxOne [eC5] []).documentsByVersion 0 = some bC5 ∧
    bC5.documents[0]? = some eC5 ∧
    bC5.metaData[0]? = some mC5 ∧
    (eC5.truthy = true →
      (mC5.willBeUpdated = true ↔
        (elemVersion ctxOne eC5 < ctxOne.schemaVersion ∨
          ∃ name ∈ projectedEmbeddedDocumentNames ctxOne [],
            fieldVersionLt (eC5.andField name)
              (lookupAssoc ctxOne.embeddedSchemaVersions name) = true))) ∧
    (eC5.truthy = false → (0 = ctxOne.schemaVersion ∧ mC5.willBeUpdated = false)) := by
  have h := C5_staleness_flag ctxOne [eC5] [] 0 bC5 rfl 0 eC5 mC5 rfl rfl
  exact ⟨rfl, rfl, rfl, h.1, h.2⟩

theorem C6_change_writer_witness :
    (∃ m ∈ ([⟨0, true, none⟩] : List DocumentMetaData), m.willBeUpdated = true) ∧
    (∃ ops, persistChangedDocuments ctxOne [Elem.doc ⟨5, 1, []⟩] [⟨0, true, none⟩] =
        some ops ∧ ops ≠ [] ∧
      ops.map writeTarget =
        ((enumFrom 0 ([⟨0, true, none⟩] : List DocumentMetaData)).filter
          (fun x => x.2.willBeUpdated)).map
          (fun x => (elemDoc (([Elem.doc ⟨5, 1, []⟩] : List Elem).getD x.1
            .jsUndefined)).id)) := by
  have hex : ∃ m ∈ ([⟨0, true, none⟩] : List DocumentMetaData), m.willBeUpdated = true :=
    ⟨⟨0, true, none⟩, by simp, rfl⟩
  exact ⟨hex, (C6_change_writer ctxOne [Elem.doc ⟨5, 1, []⟩] [⟨0, true, none⟩]).2 hex⟩

theorem C7_field_mode_unset_witness :
    ctxEmb.hasEmbeddedDocuments = true ∧
    persistChangedDocuments ctxEmb docsC7 metaC7 = some opsC7 ∧
    ((∀ op ∈ opsC7, ∃ j m, metaC7[j]? = some m ∧ m.willBeUpdated = true ∧
      op = .updateOne (elemDoc (docsC7.getD j .jsUndefined)).id
        (elemDoc (docsC7.getD j .jsUndefined))
        (let d := elemDoc (docsC7.getD j .jsUndefined)
        let unsetList := (m.initialFields.getD []).filter
          (fun f => jsFieldUndefined d f && !isEmbeddedSchemaName ctxEmb f)
        if unsetList.isEmpty then none else some unsetList) ∧
      (∀ f, f ∈ unsetFields op ↔
        (f ∈ m.initialFields.getD [] ∧
          jsFieldUndefined (elemDoc (docsC7.getD j .jsUndefined)) f = true ∧
          isEmbeddedSchemaName ctxEmb f = false))) ∧
    (∀ j m, metaC7[j]? = some m → m.willBeUpdated = true →
      ∃ op ∈ opsC7, op = fieldModeOp ctxEmb (elemDoc (docsC7.getD j .jsUndefined))
        (m.initialFields.getD [])) ∧
    (∀ op ∈ opsC7, ∀ f, isEmbeddedSchemaName ctxEmb f = true → f ∉ unsetFields op)) :=
  ⟨rfl, rfl, C7_field_mode_unset ctxEmb docsC7 metaC7 rfl opsC7 rfl⟩

end MongoLazySchema
